import Mathlib

/-!
# Shallow embedding of `uninformedSearches.py`

This file embeds the search core of the repository (the `Node` class,
`retrace_path`, `breadth_first_search`, `depth_first_search`,
`recursive_dls`, `depth_limited_search`, `iterative_deepening_search`)
into Lean and proves/refutes the specification claims about it.

Modelling conventions:
* A Python dict `{'A': [('B', c), ...]}` is an association list
  `List (String × List (String × Int))`; dict subscripting that can raise
  `KeyError` is modelled by an `Option`-returning lookup, and a raised
  `KeyError` is propagated as the explicit result `PyResult.keyError`.
* Python `while` loops and unbounded recursion are given explicit fuel;
  `none` means the loop has not finished within the given fuel.
* `str.title()` is modelled for ASCII letters (`pyTitle`): the first letter
  of every maximal letter-run is uppercased, the rest lowercased, other
  characters are unchanged.  This is Python's behaviour on ASCII data.
* The string built by `retrace_path` ("A, B\nTotal Path cost: 3") is kept
  structured as `PyResult.path ["A","B"] 3`; it is never equal (as a
  Python string) to any of the fixed error messages, because it always
  contains a newline, so keeping it as a separate constructor is faithful.
* Python `False` and `None` returned by `recursive_dls` are the
  constructors `PyResult.pyFalse` and `PyResult.pyNone`.
-/

/-- ASCII lowercase letters, in order. -/
def asciiLower : List Char :=
  ['a','b','c','d','e','f','g','h','i','j','k','l','m',
   'n','o','p','q','r','s','t','u','v','w','x','y','z']

/-- ASCII uppercase letters, in order. -/
def asciiUpper : List Char :=
  ['A','B','C','D','E','F','G','H','I','J','K','L','M',
   'N','O','P','Q','R','S','T','U','V','W','X','Y','Z']

/-- Is `c` an ASCII letter?  (Models Python's per-character `isalpha`
test on ASCII data, which decides word boundaries in `str.title()`.) -/
def isAlphaChar (c : Char) : Bool :=
  asciiLower.contains c || asciiUpper.contains c

/-- Uppercase an ASCII letter, leave anything else unchanged. -/
def upChar (c : Char) : Char :=
  match asciiLower.indexOf? c with
  | some i => asciiUpper.getD i c
  | none => c

/-- Lowercase an ASCII letter, leave anything else unchanged. -/
def lowChar (c : Char) : Char :=
  match asciiUpper.indexOf? c with
  | some i => asciiLower.getD i c
  | none => c

/-- One pass of Python's `str.title()`: `prevAlpha` records whether the
previous character was a letter; the first letter after a non-letter is
uppercased, letters inside a run are lowercased. -/
def pyTitleAux : Bool → List Char → List Char
  | _, [] => []
  | prevAlpha, c :: cs =>
    if isAlphaChar c then
      (if prevAlpha then lowChar c else upChar c) :: pyTitleAux true cs
    else
      c :: pyTitleAux false cs

/-- Embedding of Python `s.title()` (ASCII model). -/
def pyTitle (s : String) : String :=
  ⟨pyTitleAux false s.data⟩

/-- The graph dictionary `self.__graph_dict`: node identifier ↦ ordered
adjacency list of `(neighbour identifier, edge cost)` pairs. -/
abbrev GraphDict := List (String × List (String × Int))

/-- Python dict subscripting `graph_dict[k]`: `none` models a raised
`KeyError`. -/
def lookupD (g : GraphDict) (k : String) : Option (List (String × Int)) :=
  (g.find? (fun p => p.1 = k)).map (·.2)

/-- `graph.get_graph_nodes()`: the list of keys of the dictionary. -/
def gkeys (g : GraphDict) : List String :=
  g.map (·.1)

/-- The adjacency list actually stored for `k` (empty when `k` is not a
key); used only to *state* properties about stored edges, never to model
a dict access. -/
def adjOf (g : GraphDict) (k : String) : List (String × Int) :=
  (lookupD g k).getD []

/-- Every identifier referenced in some adjacency list is itself a key of
the dictionary (no dangling neighbour references). -/
def ClosedGraph (g : GraphDict) : Prop :=
  ∀ x y c, (y, c) ∈ adjOf g x → y ∈ gkeys g

/-- The `Node` class: a root node `Node(origin)` (parent `None`,
`edge_cost` 0, total cost 0) or a child node created by
`add_child_node(child_id, cost)` (total cost = parent total + edge cost). -/
inductive SNode : Type where
  | root (ident : String)
  | child (ident : String) (parent : SNode) (edge_cost : Int)
deriving DecidableEq, Repr

/-- `get_node_identifier()`. -/
def SNode.ident : SNode → String
  | .root i => i
  | .child i _ _ => i

/-- `get_total_cost()`: `self.__total_path_cost`, accumulated at
construction time (root: 0, child: parent total + edge cost). -/
def SNode.total : SNode → Int
  | .root _ => 0
  | .child _ p c => p.total + c

/-- Depth of the node in the search tree (number of edges above it). -/
def SNode.depth : SNode → Nat
  | .root _ => 0
  | .child _ p _ => p.depth + 1

/-- Identifier of the root of the parent chain. -/
def SNode.rootId : SNode → String
  | .root i => i
  | .child _ p _ => p.rootId

/-- The `(identifier, edge_cost)` pairs along the parent chain, in order
from the root. -/
def SNode.steps : SNode → List (String × Int)
  | .root _ => []
  | .child i p c => p.steps ++ [(i, c)]

/-- The loop of `retrace_path`: walk the parent chain, prepending each
identifier, producing the identifiers in root-to-node order. -/
def retrace : SNode → List String
  | .root i => [i]
  | .child i p _ => retrace p ++ [i]

/-- Result values of the Python functions.  `path ids total` stands for
the string `', '.join(ids) + '\nTotal Path cost: ' + str(total)` built by
`retrace_path`; `str s` is a literal string return; `pyFalse`/`pyNone`
are Python's `False` and `None`; `keyError` is a raised, uncaught
`KeyError`. -/
inductive PyResult : Type where
  | path (ids : List String) (total : Int)
  | str (s : String)
  | pyFalse
  | pyNone
  | keyError
deriving DecidableEq, Repr

/-- `retrace_path(dest_node)`: the traced route is never empty (the loop
always inserts at least `dest_node` itself), so the
"Path could not be retraced." branch of the source is dead code. -/
def retrace_path (n : SNode) : PyResult :=
  .path (retrace n) n.total

/-- Python truthiness of the values the searches produce: a string is
truthy iff non-empty, `False` and `None` are falsy.  (`keyError` is an
exception, not a value; every caller below propagates it before testing
truthiness, so its value here is irrelevant.) -/
def pyTruthy : PyResult → Bool
  | .path _ _ => true
  | .str s => !s.isEmpty
  | .pyFalse => false
  | .pyNone => false
  | .keyError => true

/-- `visited_nodes = dict(zip(graph_nodes, [False]*len(graph_nodes)))`. -/
def initVisited (ns : List String) : List (String × Bool) :=
  ns.map (fun n => (n, false))

/-- Dict subscript `visited_nodes[k]` (`none` models `KeyError`). -/
def vLookup (v : List (String × Bool)) (k : String) : Option Bool :=
  (v.find? (fun p => p.1 = k)).map (·.2)

/-- Dict assignment `visited_nodes[k] = True`. -/
def vSet (v : List (String × Bool)) (k : String) : List (String × Bool) :=
  v.map (fun p => if p.1 = k then (p.1, true) else p)

/-- The membership test
`child not in [city.get_node_identifier() for city in queue]` from the
source (lines 203 and 256), without the `not`: it asks whether the `Node`
object `child` equals one of the identifier *strings*.  A Python `Node`
instance is never equal to a `str`, so the test is always `False` (and
the `not in` condition in the source is always satisfied). -/
def nodeInIdentifierList (_child : SNode) (_ids : List String) : Bool :=
  false

/-- The `for child_id in graph_dict[...]` body of `breadth_first_search`:
process the children of `current_node` in adjacency order, threading the
queue.  Returns `Sum.inl r` when the loop returns early (goal found, or a
`KeyError` from `visited_nodes[child_id]`), `Sum.inr q` with the updated
queue otherwise. -/
def bfsChildren (dest : String) (cur : SNode) :
    List (String × Int) → List SNode → List (String × Bool) →
    Sum PyResult (List SNode)
  | [], q, _ => Sum.inr q
  | (cid, c) :: rest, q, v =>
    let ch : SNode := .child cid cur c
    if ch.ident = dest then
      Sum.inl (retrace_path ch)
    else
      if nodeInIdentifierList ch (q.map SNode.ident) then
        bfsChildren dest cur rest q v
      else
        match vLookup v ch.ident with
        | none => Sum.inl .keyError
        | some true => bfsChildren dest cur rest q v
        | some false => bfsChildren dest cur rest (q ++ [ch]) v

/-- The `while queue:` loop of `breadth_first_search`.  One unit of fuel
is spent per `queue.pop(0)`; `none` means the fuel ran out before the
loop finished. -/
def bfsLoop (g : GraphDict) (dest : String) :
    Nat → List SNode → List (String × Bool) → Option PyResult
  | 0, _, _ => none
  | _ + 1, [], _ => some (.str "Path not found")
  | fuel + 1, cur :: q, v =>
    match vLookup v cur.ident with
    | none => some .keyError
    | some true => bfsLoop g dest fuel q v
    | some false =>
      let v' := vSet v cur.ident
      match lookupD g cur.ident with
      | none => some .keyError
      | some adj =>
        match bfsChildren dest cur adj q v' with
        | Sum.inl r => some r
        | Sum.inr q' => bfsLoop g dest fuel q' v'

/-- `breadth_first_search(graph, origin, destination)`. -/
def breadth_first_search (fuel : Nat) (g : GraphDict)
    (origin destination : String) : Option PyResult :=
  let o := pyTitle origin
  let d := pyTitle destination
  if o = d then some (.str "Source and Destination cannot be same.")
  else if o ∉ gkeys g then
    some (.str "Unable to find 'Source City' in the map.")
  else if d ∉ gkeys g then
    some (.str "Unable to find 'Destination City' in the map.")
  else bfsLoop g d fuel [SNode.root o] (initVisited (gkeys g))

/-- The `for child_id in graph_dict[...]` body of `depth_first_search`:
like the BFS one, but children are pushed on the stack (head of the list
models the top of the Python list used as a stack). -/
def dfsChildren (dest : String) (cur : SNode) :
    List (String × Int) → List SNode → List (String × Bool) →
    Sum PyResult (List SNode)
  | [], st, _ => Sum.inr st
  | (cid, c) :: rest, st, v =>
    let ch : SNode := .child cid cur c
    if ch.ident = dest then
      Sum.inl (retrace_path ch)
    else
      if nodeInIdentifierList ch (st.map SNode.ident) then
        dfsChildren dest cur rest st v
      else
        match vLookup v ch.ident with
        | none => Sum.inl .keyError
        | some true => dfsChildren dest cur rest st v
        | some false => dfsChildren dest cur rest (ch :: st) v

/-- The `while stack:` loop of `depth_first_search` (`stack.pop()` takes
the head of the modelled stack). -/
def dfsLoop (g : GraphDict) (dest : String) :
    Nat → List SNode → List (String × Bool) → Option PyResult
  | 0, _, _ => none
  | _ + 1, [], _ => some (.str "Path not found")
  | fuel + 1, cur :: st, v =>
    match vLookup v cur.ident with
    | none => some .keyError
    | some true => dfsLoop g dest fuel st v
    | some false =>
      let v' := vSet v cur.ident
      match lookupD g cur.ident with
      | none => some .keyError
      | some adj =>
        match dfsChildren dest cur adj st v' with
        | Sum.inl r => some r
        | Sum.inr st' => dfsLoop g dest fuel st' v'

/-- `depth_first_search(graph, origin, destination)`. -/
def depth_first_search (fuel : Nat) (g : GraphDict)
    (origin destination : String) : Option PyResult :=
  let o := pyTitle origin
  let d := pyTitle destination
  if o = d then some (.str "Source and Destination cannot be same.")
  else if o ∉ gkeys g then
    some (.str "Unable to find 'Source City' in the map.")
  else if d ∉ gkeys g then
    some (.str "Unable to find 'Destination City' in the map.")
  else dfsLoop g d fuel [SNode.root o] (initVisited (gkeys g))

/-- The `for child_id in graph_dict[...]` loop of `recursive_dls`:
`cut` is the running value of `cutoff_occurred` and `recFn` is the
recursive call at depth limit `depth_limit - 1` (passed as a function so
that the mutual recursion is structural on the depth limit).  A falsy
recursive result (`False` or `None`) sets `cutoff_occurred`; a truthy
one is returned immediately; a raised `KeyError` propagates; after the
loop the source returns `False` when `cutoff_occurred` else (implicitly)
`None`. -/
def rdlsKids (recFn : SNode → PyResult) (cur : SNode) :
    Bool → List (String × Int) → PyResult
  | cut, [] => if cut then .pyFalse else .pyNone
  | _, (cid, c) :: rest =>
    match recFn (.child cid cur c) with
    | .keyError => .keyError
    | r => if pyTruthy r then r else rdlsKids recFn cur true rest

/-- Depth-limit-indexed body of `recursive_dls` (recursion is structural
on the depth limit, so concrete calls compute by reduction). -/
def rdlsGo (g : GraphDict) (dest : String) : Nat → SNode → PyResult
  | 0 => fun cur =>
    if cur.ident = dest then retrace_path cur else .pyFalse
  | L' + 1 => fun cur =>
    if cur.ident = dest then retrace_path cur
    else
      match lookupD g cur.ident with
      | none => .keyError
      | some adj => rdlsKids (rdlsGo g dest L') cur false adj

/-- `recursive_dls(graph, current_node, destination, depth_limit)` for a
non-negative depth limit.  Returns `retrace_path` output on success,
`pyFalse` (Python `False`) when the source executes `return False`,
`pyNone` (Python `None`) when the source falls off the end of the
function, and `keyError` when `graph_dict[...]` raises. -/
def recursive_dls (g : GraphDict) (cur : SNode) (dest : String)
    (L : Nat) : PyResult :=
  rdlsGo g dest L cur

/-- `depth_limited_search(graph, origin, destination, depth_limit)`. -/
def depth_limited_search (g : GraphDict)
    (origin destination : String) (depth_limit : Nat) : PyResult :=
  let o := pyTitle origin
  let d := pyTitle destination
  if o = d then .str "Source and Destination cannot be same."
  else if o ∉ gkeys g then
    .str "Unable to find 'Source City' in the map."
  else if d ∉ gkeys g then
    .str "Unable to find 'Destination City' in the map."
  else recursive_dls g (SNode.root o) d depth_limit

/-- The `while True:` loop of `iterative_deepening_search`: call
`depth_limited_search` at the current depth limit, return the result if
it is truthy, otherwise add `step` and repeat.  One unit of fuel per
iteration; `none` means the loop is still running. -/
def idsLoop (g : GraphDict) (o d : String) (step : Nat) :
    Nat → Nat → Option PyResult
  | 0, _ => none
  | fuel + 1, depth =>
    match depth_limited_search g o d depth with
    | .keyError => some .keyError
    | r => if pyTruthy r then some r else idsLoop g o d step fuel (depth + step)

/-- `iterative_deepening_search(graph, origin, destination, step_size)`.
The loop body calls `depth_limited_search` on the already title-cased
local variables, exactly as the source does. -/
def iterative_deepening_search (fuel : Nat) (g : GraphDict)
    (origin destination : String) (step : Nat) : Option PyResult :=
  let o := pyTitle origin
  let d := pyTitle destination
  if d = o then some (.str "Source and Destination cannot be same.")
  else if o ∉ gkeys g then
    some (.str "Unable to find 'Source City' in the map.")
  else if d ∉ gkeys g then
    some (.str "Unable to find 'Destination City' in the map.")
  else idsLoop g o d step fuel 0

/-!
## Stored-edge paths

`stepsOk g x steps` says that `steps` is a sequence of `(identifier,
cost)` moves each of which is a stored edge of `g`, starting from `x`.
These predicates are used to *state* the claims about returned paths.
-/

/-- Each `(y, c)` step in the list is a stored edge of `g` from the
previous identifier. -/
def stepsOk (g : GraphDict) : String → List (String × Int) → Bool
  | _, [] => true
  | x, (y, c) :: rest => (adjOf g x).contains (y, c) && stepsOk g y rest

/-- The identifier sequence visited by `steps` starting at `o`
(origin included). -/
def pathOfSteps (o : String) (steps : List (String × Int)) : List String :=
  o :: steps.map Prod.fst

/-- The sum of the stored edge costs of `steps`. -/
def costOfSteps (steps : List (String × Int)) : Int :=
  (steps.map Prod.snd).sum

/-- The identifier where `steps` ends when starting at `o`. -/
def endOfSteps (o : String) (steps : List (String × Int)) : String :=
  (steps.map Prod.fst).getLastD o

/-- The parent chain of `n` uses only stored edges of `g`. -/
def ChainOk (g : GraphDict) : SNode → Prop
  | .root _ => True
  | .child i p c => ((adjOf g p.ident).contains (i, c) = true) ∧ ChainOk g p

/-!
## Concrete graphs used to evaluate the claims

All of them are dictionaries the `Graph` class can hold.  In
`danglingGraph`, `c4Graph` and `c8ExampleGraph` note that a neighbour
identifier may be absent from the keys (`create_arc` inserts the edge
without creating the destination node), which is what `ClosedGraph`
rules out.
-/

/-- A fragment of the Romania road map used by the repository's data
file: Arad–Zerind(75), Zerind–Oradea(71), Arad–Sibiu(140),
bidirectional. -/
def romaniaFragment : GraphDict :=
  [("Arad", [("Zerind", 75), ("Sibiu", 140)]),
   ("Zerind", [("Arad", 75), ("Oradea", 71)]),
   ("Oradea", [("Zerind", 71)]),
   ("Sibiu", [("Arad", 140)])]

/-- `A → B`, `B` a dead end, `C` isolated: every branch below `A`
exhausts without reaching the depth bound, and `C` is unreachable. -/
def deadEndGraph : GraphDict :=
  [("A", [("B", 1)]), ("B", []), ("C", [])]

/-- `A → X` and `A → B → C`, where `X` is referenced as a neighbour but
is not a key of the dictionary. -/
def danglingGraph : GraphDict :=
  [("A", [("X", 1), ("B", 1)]), ("B", [("C", 1)]), ("C", [])]

/-- `A → X` (dangling) listed before `A → B → D → C`: the only stored
path from `A` to `C` has three edges. -/
def c4Graph : GraphDict :=
  [("A", [("X", 1), ("B", 1)]),
   ("B", [("D", 1)]),
   ("D", [("C", 1)]),
   ("C", [])]

/-- `A → B → D → C` with the dangling `X` listed after `B` in `A`'s
adjacency: depth-limited search succeeds at limit 3 without touching
`X`, but at limit 2 it reaches `X` with remaining budget and raises. -/
def c5Graph : GraphDict :=
  [("A", [("B", 1), ("X", 1)]),
   ("B", [("D", 1)]),
   ("D", [("C", 1)]),
   ("C", [])]

/-- `A → X` with `X` dangling and an isolated `C`: the destination `C`
is unreachable from `A`, and the dangling reference is hit once the
depth limit reaches 2. -/
def c6DanglingGraph : GraphDict :=
  [("A", [("X", 1)]), ("C", [])]

/-- A diamond `A → B → D`, `A → C → D` plus an isolated target `E`:
while searching for `E`, the identifier `D` is generated twice at the
same level, so a second `D` entry is appended while one is already in
the frontier. -/
def c8ExampleGraph : GraphDict :=
  [("A", [("B", 1), ("C", 1)]),
   ("B", [("D", 1)]),
   ("C", [("D", 1)]),
   ("D", []),
   ("E", [])]

/-- The keys of a visited-nodes dictionary. -/
def vKeys (v : List (String × Bool)) : List String :=
  v.map Prod.fst

/-- Decidable version of `ClosedGraph`: every neighbour identifier in
every stored adjacency list is a key of the dictionary. -/
def closedGraphB (g : GraphDict) : Bool :=
  g.all (fun p => p.2.all (fun e => (gkeys g).contains e.1))

/-- Identifiers reachable from `s` along stored edges in at most `n`
steps (with repetitions; used only to decide bounded reachability on
concrete graphs). -/
def reachWithin (g : GraphDict) : Nat → String → List String
  | 0, s => [s]
  | n + 1, s =>
    let prev := reachWithin g n s
    prev ++ (prev.map (fun x => (adjOf g x).map Prod.fst)).join

/-!
## Character-level lemmas about the `str.title()` model
-/

theorem upChar_notmem (c : Char) (h : c ∉ asciiLower) : upChar c = c := by
  unfold upChar
  rw [List.indexOf?_eq_none_iff.2 ?_]
  intro x hx hbe
  exact h (beq_iff_eq.1 hbe ▸ hx)

theorem lowChar_notmem (c : Char) (h : c ∉ asciiUpper) : lowChar c = c := by
  unfold lowChar
  rw [List.indexOf?_eq_none_iff.2 ?_]
  intro x hx hbe
  exact h (beq_iff_eq.1 hbe ▸ hx)

theorem upChar_upChar (c : Char) : upChar (upChar c) = upChar c := by
  by_cases h : c ∈ asciiLower
  · fin_cases h <;> decide
  · rw [upChar_notmem c h, upChar_notmem c h]

theorem lowChar_lowChar (c : Char) : lowChar (lowChar c) = lowChar c := by
  by_cases h : c ∈ asciiUpper
  · fin_cases h <;> decide
  · rw [lowChar_notmem c h, lowChar_notmem c h]

theorem isAlpha_upChar (c : Char) : isAlphaChar (upChar c) = isAlphaChar c := by
  by_cases h : c ∈ asciiLower
  · fin_cases h <;> decide
  · rw [upChar_notmem c h]

theorem isAlpha_lowChar (c : Char) : isAlphaChar (lowChar c) = isAlphaChar c := by
  by_cases h : c ∈ asciiUpper
  · fin_cases h <;> decide
  · rw [lowChar_notmem c h]

theorem pyTitleAux_idem (l : List Char) :
    ∀ b, pyTitleAux b (pyTitleAux b l) = pyTitleAux b l := by
  induction l with
  | nil => intro b; rfl
  | cons c cs ih =>
    intro b
    by_cases ha : isAlphaChar c = true
    · cases b with
      | false => simp [pyTitleAux, ha, isAlpha_upChar, upChar_upChar, ih true]
      | true => simp [pyTitleAux, ha, isAlpha_lowChar, lowChar_lowChar, ih true]
    · simp [pyTitleAux, ha, ih false]

/-- Python's `str.title()` is idempotent (on the ASCII model): the
searches title-case their inputs, and re-title-casing inside a nested
call changes nothing. -/
theorem pyTitle_idem (s : String) : pyTitle (pyTitle s) = pyTitle s := by
  unfold pyTitle
  exact congrArg String.mk (pyTitleAux_idem s.data false)

/-!
## Lemmas about search-tree nodes
-/

theorem retrace_eq_pathOfSteps (n : SNode) :
    retrace n = pathOfSteps n.rootId n.steps := by
  induction n with
  | root i => rfl
  | child i p c ih =>
    simp [retrace, SNode.rootId, SNode.steps, pathOfSteps] at *
    simp [ih]

theorem total_eq_costOfSteps (n : SNode) : n.total = costOfSteps n.steps := by
  induction n with
  | root i => rfl
  | child i p c ih =>
    simp [SNode.total, SNode.steps, costOfSteps] at *
    simp [ih]

theorem endOfSteps_cons (o y : String) (cc : Int)
    (tl : List (String × Int)) :
    endOfSteps o ((y, cc) :: tl) = endOfSteps y tl := by
  simp only [endOfSteps, List.map_cons, List.getLastD_cons]

theorem endOfSteps_concat (o y : String) (cc : Int)
    (s : List (String × Int)) :
    endOfSteps o (s ++ [(y, cc)]) = y := by
  simp [endOfSteps]

theorem ident_eq_endOfSteps (n : SNode) :
    n.ident = endOfSteps n.rootId n.steps := by
  induction n with
  | root i => rfl
  | child i p c ih =>
    simp [SNode.ident, SNode.steps, SNode.rootId, endOfSteps_concat]

theorem steps_length_eq_depth (n : SNode) : n.steps.length = n.depth := by
  induction n with
  | root i => rfl
  | child i p c ih => simp [SNode.steps, SNode.depth, ih]

theorem retrace_length (n : SNode) : (retrace n).length = n.depth + 1 := by
  rw [retrace_eq_pathOfSteps]
  simp [pathOfSteps, steps_length_eq_depth]

theorem stepsOk_append (g : GraphDict) (o : String)
    (s : List (String × Int)) (i : String) (c : Int) :
    stepsOk g o (s ++ [(i, c)]) =
      (stepsOk g o s && (adjOf g (endOfSteps o s)).contains (i, c)) := by
  induction s generalizing o with
  | nil => simp [stepsOk, endOfSteps]
  | cons hd tl ih =>
    obtain ⟨y, cc⟩ := hd
    simp only [stepsOk, List.cons_append, List.append_eq, ih y,
      endOfSteps_cons, Bool.and_assoc]

theorem chainOk_stepsOk (g : GraphDict) (n : SNode) (h : ChainOk g n) :
    stepsOk g n.rootId n.steps = true := by
  induction n with
  | root i => rfl
  | child i p c ih =>
    obtain ⟨hedge, hp⟩ := h
    rw [SNode.steps, SNode.rootId, stepsOk_append, ih hp,
      ← ident_eq_endOfSteps, hedge]
    rfl

/-!
## Soundness: every `.path` result follows stored edges

`GoodResult g o d r` says: if `r` is a reconstructed path, then its
identifier sequence starts at `o`, ends at `d`, moves only along stored
edges of `g`, and its reported total equals the sum of those stored edge
costs.
-/

def GoodResult (g : GraphDict) (o d : String) (r : PyResult) : Prop :=
  ∀ ids t, r = .path ids t →
    ∃ steps, stepsOk g o steps = true ∧ ids = pathOfSteps o steps ∧
      t = costOfSteps steps ∧ endOfSteps o steps = d

theorem goodResult_of_not_path (g : GraphDict) (o d : String)
    (r : PyResult) (h : ∀ ids t, r ≠ .path ids t) : GoodResult g o d r := by
  intro ids t hr
  exact absurd hr (h ids t)

theorem goodResult_of_node (g : GraphDict) (o d : String) (n : SNode)
    (h1 : ChainOk g n) (h2 : n.rootId = o) (h3 : n.ident = d) :
    GoodResult g o d (retrace_path n) := by
  intro ids t hr
  simp only [retrace_path, PyResult.path.injEq] at hr
  obtain ⟨hids, ht⟩ := hr
  refine ⟨n.steps, ?_, ?_, ?_, ?_⟩
  · rw [← h2]; exact chainOk_stepsOk g n h1
  · rw [← hids, retrace_eq_pathOfSteps, h2]
  · rw [← ht, total_eq_costOfSteps]
  · rw [← h2, ← ident_eq_endOfSteps, h3]

theorem adjOf_of_lookup (g : GraphDict) (k : String)
    (adj : List (String × Int)) (h : lookupD g k = some adj) :
    adjOf g k = adj := by
  simp [adjOf, h]

/-- All nodes in a frontier have well-formed parent chains rooted at `o`. -/
def QInv (g : GraphDict) (o : String) (q : List SNode) : Prop :=
  ∀ n ∈ q, ChainOk g n ∧ n.rootId = o


theorem ident_child (i : String) (p : SNode) (c : Int) :
    (SNode.child i p c).ident = i := rfl

theorem contains_of_mem {α : Type} [BEq α] [LawfulBEq α] {l : List α}
    {a : α} (h : a ∈ l) : l.contains a = true := by
  rw [List.contains_iff_exists_mem_beq]
  exact ⟨a, h, by simp⟩

theorem mem_of_contains {α : Type} [BEq α] [LawfulBEq α] {l : List α}
    {a : α} (h : l.contains a = true) : a ∈ l := by
  rcases List.contains_iff_exists_mem_beq.1 h with ⟨b, hb, he⟩
  rwa [show a = b from by simpa using he]

/-- Unfolding of one `for` iteration of the BFS child loop, with the
always-false frontier-membership test already reduced. -/
theorem bfsChildren_cons (d : String) (cur : SNode) (cid : String)
    (c : Int) (rest : List (String × Int)) (q : List SNode)
    (v : List (String × Bool)) :
    bfsChildren d cur ((cid, c) :: rest) q v =
      (if cid = d then Sum.inl (retrace_path (SNode.child cid cur c))
      else
        match vLookup v cid with
        | none => Sum.inl PyResult.keyError
        | some true => bfsChildren d cur rest q v
        | some false =>
          bfsChildren d cur rest (q ++ [SNode.child cid cur c]) v) := by
  simp [bfsChildren, nodeInIdentifierList, ident_child]

theorem bfsChildren_good (g : GraphDict) (o d : String) (cur : SNode)
    (hC : ChainOk g cur) (hR : cur.rootId = o) :
    ∀ (adj : List (String × Int)) (q : List SNode)
      (v : List (String × Bool)),
      (∀ p ∈ adj, p ∈ adjOf g cur.ident) → QInv g o q →
      (∀ r, bfsChildren d cur adj q v = Sum.inl r → GoodResult g o d r) ∧
      (∀ q', bfsChildren d cur adj q v = Sum.inr q' → QInv g o q') := by
  intro adj
  induction adj with
  | nil =>
    intro q v _ hq
    constructor
    · intro r hr; simp [bfsChildren] at hr
    · intro q' hq'; simp [bfsChildren] at hq'; rwa [← hq']
  | cons hd rest ih =>
    obtain ⟨cid, c⟩ := hd
    intro q v hsub hq
    have hedge : (cid, c) ∈ adjOf g cur.ident := hsub _ (List.mem_cons_self _ _)
    have hsub' : ∀ p ∈ rest, p ∈ adjOf g cur.ident := by
      intro p hp; exact hsub p (List.mem_cons_of_mem _ hp)
    have hch : ChainOk g (SNode.child cid cur c) :=
      ⟨contains_of_mem hedge, hC⟩
    have hchR : (SNode.child cid cur c).rootId = o := hR
    rw [bfsChildren_cons]
    by_cases hgoal : cid = d
    · rw [if_pos hgoal]
      constructor
      · intro r hr
        injection hr with hr
        rw [← hr]
        exact goodResult_of_node g o d _ hch hchR hgoal
      · intro q' hq'
        exact Sum.noConfusion hq'
    · rw [if_neg hgoal]
      cases hv : vLookup v cid with
      | none =>
        constructor
        · intro r hr
          injection hr with hr
          rw [← hr]
          exact goodResult_of_not_path g o d _ (by intro ids t h; cases h)
        · intro q' hq'
          exact Sum.noConfusion hq'
      | some b =>
        cases b with
        | true => exact ih q v hsub' hq
        | false =>
          refine ih (q ++ [SNode.child cid cur c]) v hsub' ?_
          intro n hn
          rcases List.mem_append.1 hn with h | h
          · exact hq n h
          · simp at h; rw [h]; exact ⟨hch, hchR⟩

/-- Unfolding of one iteration of the BFS `while` loop. -/
theorem bfsLoop_cons (g : GraphDict) (d : String) (fuel : Nat)
    (cur : SNode) (q : List SNode) (v : List (String × Bool)) :
    bfsLoop g d (fuel + 1) (cur :: q) v =
      (match vLookup v cur.ident with
      | none => some PyResult.keyError
      | some true => bfsLoop g d fuel q v
      | some false =>
        match lookupD g cur.ident with
        | none => some PyResult.keyError
        | some adj =>
          match bfsChildren d cur adj q (vSet v cur.ident) with
          | Sum.inl r => some r
          | Sum.inr q' => bfsLoop g d fuel q' (vSet v cur.ident)) := rfl

theorem bfsLoop_good (g : GraphDict) (o d : String) :
    ∀ (fuel : Nat) (q : List SNode) (v : List (String × Bool)),
      QInv g o q → ∀ r, bfsLoop g d fuel q v = some r → GoodResult g o d r := by
  intro fuel
  induction fuel with
  | zero => intro q v _ r hr; simp [bfsLoop] at hr
  | succ fuel ih =>
    intro q v hq r hr
    cases q with
    | nil =>
      simp only [bfsLoop, Option.some.injEq] at hr
      rw [← hr]
      exact goodResult_of_not_path g o d _ (by intro ids t h; cases h)
    | cons cur rest =>
      have hcur := hq cur (List.mem_cons_self _ _)
      have hrest : QInv g o rest := fun n hn => hq n (List.mem_cons_of_mem _ hn)
      rw [bfsLoop_cons] at hr
      split at hr
      · injection hr with hr
        rw [← hr]
        exact goodResult_of_not_path g o d _ (by intro ids t h; cases h)
      · exact ih rest v hrest r hr
      · rename_i hv
        split at hr
        · injection hr with hr
          rw [← hr]
          exact goodResult_of_not_path g o d _ (by intro ids t h; cases h)
        · rename_i adj hl
          have hgood := bfsChildren_good g o d cur hcur.1 hcur.2 adj rest
            (vSet v cur.ident)
            (by rw [adjOf_of_lookup g cur.ident adj hl]; exact fun p hp => hp)
            hrest
          split at hr
          · rename_i r' hc
            injection hr with hr
            rw [← hr]
            exact hgood.1 r' hc
          · rename_i q' hc
            exact ih q' (vSet v cur.ident) (hgood.2 q' hc) r hr

/-- Soundness of `breadth_first_search`: a reconstructed-path result
follows stored edges from the title-cased origin to the title-cased
destination and reports the sum of their stored costs. -/
theorem bfs_good (g : GraphDict) (origin destination : String)
    (fuel : Nat) (r : PyResult)
    (h : breadth_first_search fuel g origin destination = some r) :
    GoodResult g (pyTitle origin) (pyTitle destination) r := by
  unfold breadth_first_search at h
  dsimp only at h
  split at h
  · injection h with h
    rw [← h]
    exact goodResult_of_not_path _ _ _ _ (by intro ids t hh; cases hh)
  · split at h
    · injection h with h
      rw [← h]
      exact goodResult_of_not_path _ _ _ _ (by intro ids t hh; cases hh)
    · split at h
      · injection h with h
        rw [← h]
        exact goodResult_of_not_path _ _ _ _ (by intro ids t hh; cases hh)
      · refine bfsLoop_good g (pyTitle origin) (pyTitle destination)
          fuel _ _ ?_ r h
        intro n hn
        simp at hn
        rw [hn]
        exact ⟨trivial, rfl⟩

/-- Unfolding of one `for` iteration of the DFS child loop. -/
theorem dfsChildren_cons (d : String) (cur : SNode) (cid : String)
    (c : Int) (rest : List (String × Int)) (st : List SNode)
    (v : List (String × Bool)) :
    dfsChildren d cur ((cid, c) :: rest) st v =
      (if cid = d then Sum.inl (retrace_path (SNode.child cid cur c))
      else
        match vLookup v cid with
        | none => Sum.inl PyResult.keyError
        | some true => dfsChildren d cur rest st v
        | some false =>
          dfsChildren d cur rest (SNode.child cid cur c :: st) v) := by
  simp [dfsChildren, nodeInIdentifierList, ident_child]

theorem dfsChildren_good (g : GraphDict) (o d : String) (cur : SNode)
    (hC : ChainOk g cur) (hR : cur.rootId = o) :
    ∀ (adj : List (String × Int)) (st : List SNode)
      (v : List (String × Bool)),
      (∀ p ∈ adj, p ∈ adjOf g cur.ident) → QInv g o st →
      (∀ r, dfsChildren d cur adj st v = Sum.inl r → GoodResult g o d r) ∧
      (∀ st', dfsChildren d cur adj st v = Sum.inr st' → QInv g o st') := by
  intro adj
  induction adj with
  | nil =>
    intro st v _ hq
    constructor
    · intro r hr; simp [dfsChildren] at hr
    · intro st' hq'; simp [dfsChildren] at hq'; rwa [← hq']
  | cons hd rest ih =>
    obtain ⟨cid, c⟩ := hd
    intro st v hsub hq
    have hedge : (cid, c) ∈ adjOf g cur.ident := hsub _ (List.mem_cons_self _ _)
    have hsub' : ∀ p ∈ rest, p ∈ adjOf g cur.ident := by
      intro p hp; exact hsub p (List.mem_cons_of_mem _ hp)
    have hch : ChainOk g (SNode.child cid cur c) :=
      ⟨contains_of_mem hedge, hC⟩
    have hchR : (SNode.child cid cur c).rootId = o := hR
    rw [dfsChildren_cons]
    by_cases hgoal : cid = d
    · rw [if_pos hgoal]
      constructor
      · intro r hr
        injection hr with hr
        rw [← hr]
        exact goodResult_of_node g o d _ hch hchR hgoal
      · intro st' hq'
        exact Sum.noConfusion hq'
    · rw [if_neg hgoal]
      cases hv : vLookup v cid with
      | none =>
        constructor
        · intro r hr
          injection hr with hr
          rw [← hr]
          exact goodResult_of_not_path g o d _ (by intro ids t h; cases h)
        · intro st' hq'
          exact Sum.noConfusion hq'
      | some b =>
        cases b with
        | true => exact ih st v hsub' hq
        | false =>
          refine ih (SNode.child cid cur c :: st) v hsub' ?_
          intro n hn
          rcases List.mem_cons.1 hn with h | h
          · rw [h]; exact ⟨hch, hchR⟩
          · exact hq n h

/-- Unfolding of one iteration of the DFS `while` loop. -/
theorem dfsLoop_cons (g : GraphDict) (d : String) (fuel : Nat)
    (cur : SNode) (st : List SNode) (v : List (String × Bool)) :
    dfsLoop g d (fuel + 1) (cur :: st) v =
      (match vLookup v cur.ident with
      | none => some PyResult.keyError
      | some true => dfsLoop g d fuel st v
      | some false =>
        match lookupD g cur.ident with
        | none => some PyResult.keyError
        | some adj =>
          match dfsChildren d cur adj st (vSet v cur.ident) with
          | Sum.inl r => some r
          | Sum.inr st' => dfsLoop g d fuel st' (vSet v cur.ident)) := rfl

theorem dfsLoop_good (g : GraphDict) (o d : String) :
    ∀ (fuel : Nat) (st : List SNode) (v : List (String × Bool)),
      QInv g o st → ∀ r, dfsLoop g d fuel st v = some r → GoodResult g o d r := by
  intro fuel
  induction fuel with
  | zero => intro st v _ r hr; simp [dfsLoop] at hr
  | succ fuel ih =>
    intro st v hq r hr
    cases st with
    | nil =>
      simp only [dfsLoop, Option.some.injEq] at hr
      rw [← hr]
      exact goodResult_of_not_path g o d _ (by intro ids t h; cases h)
    | cons cur rest =>
      have hcur := hq cur (List.mem_cons_self _ _)
      have hrest : QInv g o rest := fun n hn => hq n (List.mem_cons_of_mem _ hn)
      rw [dfsLoop_cons] at hr
      split at hr
      · injection hr with hr
        rw [← hr]
        exact goodResult_of_not_path g o d _ (by intro ids t h; cases h)
      · exact ih rest v hrest r hr
      · rename_i hv
        split at hr
        · injection hr with hr
          rw [← hr]
          exact goodResult_of_not_path g o d _ (by intro ids t h; cases h)
        · rename_i adj hl
          have hgood := dfsChildren_good g o d cur hcur.1 hcur.2 adj rest
            (vSet v cur.ident)
            (by rw [adjOf_of_lookup g cur.ident adj hl]; exact fun p hp => hp)
            hrest
          split at hr
          · rename_i r' hc
            injection hr with hr
            rw [← hr]
            exact hgood.1 r' hc
          · rename_i st' hc
            exact ih st' (vSet v cur.ident) (hgood.2 st' hc) r hr

/-- Soundness of `depth_first_search`: same statement as for BFS. -/
theorem dfs_good (g : GraphDict) (origin destination : String)
    (fuel : Nat) (r : PyResult)
    (h : depth_first_search fuel g origin destination = some r) :
    GoodResult g (pyTitle origin) (pyTitle destination) r := by
  unfold depth_first_search at h
  dsimp only at h
  split at h
  · injection h with h
    rw [← h]
    exact goodResult_of_not_path _ _ _ _ (by intro ids t hh; cases hh)
  · split at h
    · injection h with h
      rw [← h]
      exact goodResult_of_not_path _ _ _ _ (by intro ids t hh; cases hh)
    · split at h
      · injection h with h
        rw [← h]
        exact goodResult_of_not_path _ _ _ _ (by intro ids t hh; cases hh)
      · refine dfsLoop_good g (pyTitle origin) (pyTitle destination)
          fuel _ _ ?_ r h
        intro n hn
        simp at hn
        rw [hn]
        exact ⟨trivial, rfl⟩

/-!
## Soundness and depth bound for `recursive_dls`
-/

theorem recursive_dls_zero (g : GraphDict) (cur : SNode) (d : String) :
    recursive_dls g cur d 0 =
      (if cur.ident = d then retrace_path cur else .pyFalse) := rfl

theorem recursive_dls_succ (g : GraphDict) (cur : SNode) (d : String)
    (L' : Nat) :
    recursive_dls g cur d (L' + 1) =
      (if cur.ident = d then retrace_path cur
      else
        match lookupD g cur.ident with
        | none => PyResult.keyError
        | some adj => rdlsKids (rdlsGo g d L') cur false adj) := rfl

theorem rdlsKids_nil (recFn : SNode → PyResult) (cur : SNode)
    (cut : Bool) :
    rdlsKids recFn cur cut [] = (if cut then .pyFalse else .pyNone) := rfl

theorem rdlsKids_cons (recFn : SNode → PyResult) (cur : SNode)
    (cut : Bool) (cid : String) (c : Int)
    (rest : List (String × Int)) :
    rdlsKids recFn cur cut ((cid, c) :: rest) =
      (match recFn (.child cid cur c) with
      | .keyError => .keyError
      | r => if pyTruthy r then r else rdlsKids recFn cur true rest) := rfl

/-- Any reconstructed path returned by `recursive_dls` from node `cur`
with remaining depth `L` is the retrace of a well-chained descendant of
`cur` ending at `dest`, of tree depth at most `cur.depth + L`. -/
theorem rdls_found (g : GraphDict) (d : String) :
    ∀ (L : Nat) (cur : SNode), ChainOk g cur →
      ∀ ids t, recursive_dls g cur d L = .path ids t →
        ∃ m : SNode, ChainOk g m ∧ m.rootId = cur.rootId ∧ m.ident = d ∧
          ids = retrace m ∧ t = m.total ∧ m.depth ≤ cur.depth + L := by
  intro L
  induction L with
  | zero =>
    intro cur hC ids t h
    rw [recursive_dls_zero] at h
    split at h
    · rename_i hd
      injection h with h1 h2
      exact ⟨cur, hC, rfl, hd, h1.symm, h2.symm, Nat.le_refl _⟩
    · cases h
  | succ L' ihL =>
    have kids : ∀ (cur : SNode), ChainOk g cur →
        ∀ (l : List (String × Int)), (∀ p ∈ l, p ∈ adjOf g cur.ident) →
        ∀ (cut : Bool) ids t, rdlsKids (rdlsGo g d L') cur cut l = .path ids t →
          ∃ m : SNode, ChainOk g m ∧ m.rootId = cur.rootId ∧ m.ident = d ∧
            ids = retrace m ∧ t = m.total ∧ m.depth ≤ cur.depth + (L' + 1) := by
      intro cur hC l
      induction l with
      | nil =>
        intro _ cut ids t h
        rw [rdlsKids_nil] at h
        split at h <;> cases h
      | cons hd rest ihl =>
        obtain ⟨cid, c⟩ := hd
        intro hsub cut ids t h
        have hedge : (cid, c) ∈ adjOf g cur.ident :=
          hsub _ (List.mem_cons_self _ _)
        have hsub' : ∀ p ∈ rest, p ∈ adjOf g cur.ident := fun p hp =>
          hsub p (List.mem_cons_of_mem _ hp)
        have hch : ChainOk g (SNode.child cid cur c) :=
          ⟨contains_of_mem hedge, hC⟩
        rw [rdlsKids_cons] at h
        cases hrec : rdlsGo g d L' (.child cid cur c) with
        | path ids' t' =>
          rw [hrec] at h
          simp only [pyTruthy, if_true] at h
          injection h with h1 h2
          obtain ⟨m, hm1, hm2, hm3, hm4, hm5, hm6⟩ :=
            ihL (.child cid cur c) hch ids' t' hrec
          refine ⟨m, hm1, hm2, hm3, by rw [← h1, hm4], by rw [← h2, hm5], ?_⟩
          calc m.depth ≤ (SNode.child cid cur c).depth + L' := hm6
            _ = cur.depth + (L' + 1) := by
                simp only [SNode.depth]; omega
        | str s =>
          rw [hrec] at h
          simp only [pyTruthy] at h
          split at h
          · cases h
          · exact ihl hsub' true ids t h
        | pyFalse =>
          rw [hrec] at h
          simp only [pyTruthy, Bool.false_eq_true, if_false] at h
          exact ihl hsub' true ids t h
        | pyNone =>
          rw [hrec] at h
          simp only [pyTruthy, Bool.false_eq_true, if_false] at h
          exact ihl hsub' true ids t h
        | keyError =>
          rw [hrec] at h
          cases h
    intro cur hC ids t h
    rw [recursive_dls_succ] at h
    split at h
    · rename_i hd
      injection h with h1 h2
      exact ⟨cur, hC, rfl, hd, h1.symm, h2.symm, Nat.le_add_right _ _⟩
    · split at h
      · cases h
      · rename_i adj hl
        exact kids cur hC adj
          (by rw [adjOf_of_lookup g cur.ident adj hl]; exact fun p hp => hp)
          false ids t h

/-- Soundness and depth bound of `depth_limited_search`: a
reconstructed-path result follows stored edges from the title-cased
origin to the title-cased destination, reports the sum of the stored
costs, and has at most `L + 1` identifiers (`L` edges). -/
theorem dls_good (g : GraphDict) (origin destination : String) (L : Nat)
    (ids : List String) (t : Int)
    (h : depth_limited_search g origin destination L = .path ids t) :
    (∃ steps, stepsOk g (pyTitle origin) steps = true ∧
      ids = pathOfSteps (pyTitle origin) steps ∧ t = costOfSteps steps ∧
      endOfSteps (pyTitle origin) steps = pyTitle destination) ∧
    ids.length ≤ L + 1 := by
  unfold depth_limited_search at h
  dsimp only at h
  split at h
  · cases h
  · split at h
    · cases h
    · split at h
      · cases h
      · obtain ⟨m, hm1, hm2, hm3, hm4, hm5, hm6⟩ :=
          rdls_found g (pyTitle destination) L
            (SNode.root (pyTitle origin)) trivial ids t h
        simp only [SNode.rootId] at hm2
        simp only [SNode.depth, Nat.zero_add] at hm6
        constructor
        · refine ⟨m.steps, ?_, ?_, ?_, ?_⟩
          · rw [← hm2]; exact chainOk_stepsOk g m hm1
          · rw [hm4, retrace_eq_pathOfSteps, hm2]
          · rw [hm5, total_eq_costOfSteps]
          · rw [← hm2, ← ident_eq_endOfSteps, hm3]
        · rw [hm4, retrace_length]
          omega

theorem idsLoop_succ (g : GraphDict) (o d : String) (step fuel depth : Nat) :
    idsLoop g o d step (fuel + 1) depth =
      (match depth_limited_search g o d depth with
      | .keyError => some .keyError
      | r => if pyTruthy r then some r
             else idsLoop g o d step fuel (depth + step)) := rfl

/-- Every value produced by the iterative-deepening loop is either a
propagated `KeyError` or the result of `depth_limited_search` at some
depth limit. -/
theorem idsLoop_some (g : GraphDict) (o d : String) (step : Nat) :
    ∀ (fuel depth : Nat) (r : PyResult), idsLoop g o d step fuel depth = some r →
      r = .keyError ∨ ∃ D, depth_limited_search g o d D = r := by
  intro fuel
  induction fuel with
  | zero => intro depth r h; simp [idsLoop] at h
  | succ fuel ih =>
    intro depth r h
    rw [idsLoop_succ] at h
    cases hdls : depth_limited_search g o d depth with
    | path ids' t' =>
      rw [hdls] at h
      simp only [pyTruthy, if_true] at h
      injection h with h
      exact Or.inr ⟨depth, by rw [hdls, h]⟩
    | str s =>
      rw [hdls] at h
      simp only [pyTruthy] at h
      split at h
      · injection h with h
        exact Or.inr ⟨depth, by rw [hdls, h]⟩
      · exact ih (depth + step) r h
    | pyFalse =>
      rw [hdls] at h
      simp only [pyTruthy, Bool.false_eq_true, if_false] at h
      exact ih (depth + step) r h
    | pyNone =>
      rw [hdls] at h
      simp only [pyTruthy, Bool.false_eq_true, if_false] at h
      exact ih (depth + step) r h
    | keyError =>
      rw [hdls] at h
      injection h with h
      exact Or.inl h.symm

/-- A reconstructed-path result of `iterative_deepening_search` is the
result of `depth_limited_search` (on the title-cased identifiers) at
some depth limit. -/
theorem ids_found (g : GraphDict) (origin destination : String)
    (fuel step : Nat) (ids : List String) (t : Int)
    (h : iterative_deepening_search fuel g origin destination step =
      some (.path ids t)) :
    ∃ D, depth_limited_search g (pyTitle origin) (pyTitle destination) D =
      .path ids t := by
  unfold iterative_deepening_search at h
  dsimp only at h
  split at h
  · injection h with h; cases h
  · split at h
    · injection h with h; cases h
    · split at h
      · injection h with h; cases h
      · rcases idsLoop_some g (pyTitle origin) (pyTitle destination) step
          fuel 0 _ h with hk | ⟨D, hD⟩
        · cases hk
        · exact ⟨D, hD⟩

/-!
## Claim C1
-/

/-- C1: for every graph and every call to `breadth_first_search`,
`depth_first_search`, `depth_limited_search` or
`iterative_deepening_search` that returns a path result, the reported
total cost equals the sum of the stored edge costs along the returned
identifier sequence, taken in order from the (canonicalized) origin to
the destination: there is a list of stored edges `steps`, one per
consecutive pair of returned identifiers, whose costs sum to the
reported total. -/
theorem c1_total_cost_is_sum_of_stored_edges
    (g : GraphDict) (origin destination : String) (ids : List String)
    (t : Int)
    (h : (∃ fuel, breadth_first_search fuel g origin destination =
            some (.path ids t)) ∨
         (∃ fuel, depth_first_search fuel g origin destination =
            some (.path ids t)) ∨
         (∃ L, depth_limited_search g origin destination L = .path ids t) ∨
         (∃ fuel step,
            iterative_deepening_search fuel g origin destination step =
              some (.path ids t))) :
    ∃ steps, stepsOk g (pyTitle origin) steps = true ∧
      ids = pathOfSteps (pyTitle origin) steps ∧
      t = costOfSteps steps ∧
      endOfSteps (pyTitle origin) steps = pyTitle destination := by
  rcases h with ⟨fuel, h⟩ | ⟨fuel, h⟩ | ⟨L, h⟩ | ⟨fuel, step, h⟩
  · exact bfs_good g origin destination fuel _ h ids t rfl
  · exact dfs_good g origin destination fuel _ h ids t rfl
  · exact (dls_good g origin destination L ids t h).1
  · obtain ⟨D, hD⟩ := ids_found g origin destination fuel step ids t h
    have := (dls_good g (pyTitle origin) (pyTitle destination) D ids t hD).1
    rwa [pyTitle_idem, pyTitle_idem] at this

/-- Witness for C1: on the Romania fragment, BFS from "arad" to "oradea"
returns the path Arad–Zerind–Oradea with total 146, and that total is
indeed the sum of stored edge costs along the sequence. -/
theorem c1_witness :
    ∃ steps, stepsOk romaniaFragment (pyTitle "arad") steps = true ∧
      ["Arad", "Zerind", "Oradea"] = pathOfSteps (pyTitle "arad") steps ∧
      (146 : Int) = costOfSteps steps ∧
      endOfSteps (pyTitle "arad") steps = pyTitle "oradea" :=
  c1_total_cost_is_sum_of_stored_edges romaniaFragment "arad" "oradea"
    ["Arad", "Zerind", "Oradea"] 146 (Or.inl ⟨50, by decide⟩)

/-!
## Closed graphs and bounded reachability
-/

theorem closed_adj (g : GraphDict) (hc : closedGraphB g = true)
    {x y : String} {c : Int} (h : (y, c) ∈ adjOf g x) : y ∈ gkeys g := by
  unfold adjOf lookupD at h
  cases hf : g.find? (fun p => p.1 = x) with
  | none => rw [hf] at h; simp at h
  | some p =>
    rw [hf] at h
    simp only [Option.map_some', Option.getD_some] at h
    have hp : p ∈ g := List.mem_of_find?_eq_some hf
    have h1 := (List.all_eq_true.1 hc) p hp
    have h2 := (List.all_eq_true.1 h1) (y, c) h
    exact mem_of_contains h2

/-- `closedGraphB` implies the propositional closure property. -/
theorem closedGraph_of_b (g : GraphDict) (hc : closedGraphB g = true) :
    ClosedGraph g :=
  fun _ _ _ h => closed_adj g hc h

theorem reachWithin_succ_self (g : GraphDict) (n : Nat) (s : String) :
    ∀ x ∈ reachWithin g n s, x ∈ reachWithin g (n + 1) s := by
  intro x hx
  simp only [reachWithin]
  exact List.mem_append_left _ hx

theorem reachWithin_mono (g : GraphDict) (s : String) {m n : Nat}
    (h : m ≤ n) : ∀ x ∈ reachWithin g m s, x ∈ reachWithin g n s := by
  induction n with
  | zero => intro x hx; rwa [Nat.le_zero.1 h] at hx
  | succ n ih =>
    rcases Nat.lt_or_ge m (n + 1) with hlt | hge
    · intro x hx
      exact reachWithin_succ_self g n s x (ih (Nat.lt_succ_iff.1 hlt) x hx)
    · intro x hx
      rwa [Nat.le_antisymm h hge] at hx

theorem reachWithin_of_edge (g : GraphDict) {z w : String} {c : Int}
    (n : Nat) (s : String) (hz : z ∈ reachWithin g n s)
    (he : (w, c) ∈ adjOf g z) : w ∈ reachWithin g (n + 1) s := by
  simp only [reachWithin]
  refine List.mem_append_right _ ?_
  rw [List.mem_join]
  refine ⟨(adjOf g z).map Prod.fst, ?_, ?_⟩
  · exact List.mem_map_of_mem _ hz
  · exact List.mem_map_of_mem _ he

theorem reachWithin_step (g : GraphDict) {s y : String} {c : Int}
    (he : (y, c) ∈ adjOf g s) :
    ∀ (n : Nat), ∀ x ∈ reachWithin g n y, x ∈ reachWithin g (n + 1) s := by
  intro n
  induction n with
  | zero =>
    intro x hx
    simp only [reachWithin, List.mem_singleton] at hx
    rw [hx]
    exact reachWithin_of_edge g 0 s (by simp [reachWithin]) he
  | succ n ih =>
    intro x hx
    simp only [reachWithin, List.mem_append] at hx
    rcases hx with hx | hx
    · exact reachWithin_succ_self g (n + 1) s x (ih x hx)
    · rw [List.mem_join] at hx
      obtain ⟨l, hl, hxl⟩ := hx
      rw [List.mem_map] at hl
      obtain ⟨z, hz, hzl⟩ := hl
      rw [← hzl, List.mem_map] at hxl
      obtain ⟨⟨w, cc⟩, hwc, hw⟩ := hxl
      rw [← hw]
      exact reachWithin_of_edge g (n + 1) s (ih z hz) hwc

/-- Every stored-edge path of `n` steps from `s` ends inside
`reachWithin g n s`: if an identifier is not in `reachWithin g n s`,
then no stored path of at most `n` edges reaches it from `s`. -/
theorem reachWithin_complete (g : GraphDict) :
    ∀ (steps : List (String × Int)) (s : String),
      stepsOk g s steps = true →
      endOfSteps s steps ∈ reachWithin g steps.length s := by
  intro steps
  induction steps with
  | nil =>
    intro s _
    simp [endOfSteps, reachWithin]
  | cons hd rest ih =>
    obtain ⟨y, c⟩ := hd
    intro s h
    simp only [stepsOk, Bool.and_eq_true] at h
    rw [endOfSteps_cons]
    exact reachWithin_step g (mem_of_contains h.1) rest.length
      (endOfSteps y rest) (ih y h.2)

/-- No stored path of at most `n` edges from `s` ends at an identifier
outside `reachWithin g n s`. -/
theorem no_short_path_of_not_reachWithin (g : GraphDict) {s d : String}
    {n : Nat} (hd : d ∉ reachWithin g n s) :
    ∀ steps, stepsOk g s steps = true → endOfSteps s steps = d →
      n < steps.length := by
  intro steps hok hend
  by_contra hlen
  push_neg at hlen
  exact hd (reachWithin_mono g s hlen _
    (hend ▸ reachWithin_complete g steps s hok))

/-!
## Claim C3
-/

/-- C3 (refuting the claimed behaviour; the code contradicts the
intended three-way outcome): on `deadEndGraph` with destination `"C"`
and depth limit 2, the only child call — at node `B`, remaining depth
1 — falls off the end of `recursive_dls` and reports Python `None`
(failure: `B`'s adjacency list is empty and the depth bound was never
reached), yet the parent call at `A` reports Python `False` (the cutoff
value), not `None`: `if not result: cutoff_occurred = True` cannot tell
a child's `None` (failure) from `False` (cutoff), so a call all of
whose children report failure reports cutoff. -/
theorem c3_failure_children_yield_cutoff_value :
    recursive_dls deadEndGraph (SNode.child "B" (SNode.root "A") 1) "C" 1 =
      PyResult.pyNone ∧
    recursive_dls deadEndGraph (SNode.root "A") "C" 2 = PyResult.pyFalse ∧
    PyResult.pyFalse ≠ PyResult.pyNone := by
  decide

/-!
## Claim C7
-/

/-- C7: all four search functions canonicalize both identifiers with
`str.title()` and validate before any traversal: equal canonicalized
identifiers give the "cannot be same" string, an origin that is not a
key gives the "Source City" string, a destination that is not a key
gives the "Destination City" string; the three messages are pairwise
distinct, and each is an ordinary return value (a `.str` result, not a
raised exception). -/
theorem c7_canonicalization_and_validation (g : GraphDict)
    (origin destination : String) (fuel L step : Nat) :
    (pyTitle origin = pyTitle destination →
      breadth_first_search fuel g origin destination =
        some (.str "Source and Destination cannot be same.") ∧
      depth_first_search fuel g origin destination =
        some (.str "Source and Destination cannot be same.") ∧
      depth_limited_search g origin destination L =
        .str "Source and Destination cannot be same." ∧
      iterative_deepening_search fuel g origin destination step =
        some (.str "Source and Destination cannot be same.")) ∧
    (pyTitle origin ≠ pyTitle destination →
      pyTitle origin ∉ gkeys g →
      breadth_first_search fuel g origin destination =
        some (.str "Unable to find 'Source City' in the map.") ∧
      depth_first_search fuel g origin destination =
        some (.str "Unable to find 'Source City' in the map.") ∧
      depth_limited_search g origin destination L =
        .str "Unable to find 'Source City' in the map." ∧
      iterative_deepening_search fuel g origin destination step =
        some (.str "Unable to find 'Source City' in the map.")) ∧
    (pyTitle origin ≠ pyTitle destination →
      pyTitle origin ∈ gkeys g →
      pyTitle destination ∉ gkeys g →
      breadth_first_search fuel g origin destination =
        some (.str "Unable to find 'Destination City' in the map.") ∧
      depth_first_search fuel g origin destination =
        some (.str "Unable to find 'Destination City' in the map.") ∧
      depth_limited_search g origin destination L =
        .str "Unable to find 'Destination City' in the map." ∧
      iterative_deepening_search fuel g origin destination step =
        some (.str "Unable to find 'Destination City' in the map.")) ∧
    (("Source and Destination cannot be same." : String) ≠
        "Unable to find 'Source City' in the map." ∧
      ("Source and Destination cannot be same." : String) ≠
        "Unable to find 'Destination City' in the map." ∧
      ("Unable to find 'Source City' in the map." : String) ≠
        "Unable to find 'Destination City' in the map.") := by
  refine ⟨?_, ?_, ?_, by decide⟩
  · intro h1
    refine ⟨?_, ?_, ?_, ?_⟩
    · unfold breadth_first_search; dsimp only; rw [if_pos h1]
    · unfold depth_first_search; dsimp only; rw [if_pos h1]
    · unfold depth_limited_search; dsimp only; rw [if_pos h1]
    · unfold iterative_deepening_search; dsimp only; rw [if_pos h1.symm]
  · intro h1 h2
    refine ⟨?_, ?_, ?_, ?_⟩
    · unfold breadth_first_search; dsimp only; rw [if_neg h1, if_pos h2]
    · unfold depth_first_search; dsimp only; rw [if_neg h1, if_pos h2]
    · unfold depth_limited_search; dsimp only; rw [if_neg h1, if_pos h2]
    · unfold iterative_deepening_search; dsimp only
      rw [if_neg (fun hh => h1 hh.symm), if_pos h2]
  · intro h1 h2 h3
    refine ⟨?_, ?_, ?_, ?_⟩
    · unfold breadth_first_search; dsimp only
      rw [if_neg h1, if_neg (not_not_intro h2), if_pos h3]
    · unfold depth_first_search; dsimp only
      rw [if_neg h1, if_neg (not_not_intro h2), if_pos h3]
    · unfold depth_limited_search; dsimp only
      rw [if_neg h1, if_neg (not_not_intro h2), if_pos h3]
    · unfold iterative_deepening_search; dsimp only
      rw [if_neg (fun hh => h1 hh.symm), if_neg (not_not_intro h2),
        if_pos h3]

/-- Witness for C7: the three validation cases on the Romania fragment
("arad" vs "Arad" canonicalize to the same identifier; "nosuch" is
missing as origin; "nosuch" is missing as destination). -/
theorem c7_witness :
    (breadth_first_search 5 romaniaFragment "arad" "Arad" =
        some (.str "Source and Destination cannot be same.") ∧
      depth_first_search 5 romaniaFragment "arad" "Arad" =
        some (.str "Source and Destination cannot be same.") ∧
      depth_limited_search romaniaFragment "arad" "Arad" 3 =
        .str "Source and Destination cannot be same." ∧
      iterative_deepening_search 5 romaniaFragment "arad" "Arad" 1 =
        some (.str "Source and Destination cannot be same.")) ∧
    (breadth_first_search 5 romaniaFragment "nosuch" "arad" =
        some (.str "Unable to find 'Source City' in the map.") ∧
      depth_first_search 5 romaniaFragment "nosuch" "arad" =
        some (.str "Unable to find 'Source City' in the map.") ∧
      depth_limited_search romaniaFragment "nosuch" "arad" 3 =
        .str "Unable to find 'Source City' in the map." ∧
      iterative_deepening_search 5 romaniaFragment "nosuch" "arad" 1 =
        some (.str "Unable to find 'Source City' in the map.")) ∧
    (breadth_first_search 5 romaniaFragment "arad" "nosuch" =
        some (.str "Unable to find 'Destination City' in the map.") ∧
      depth_first_search 5 romaniaFragment "arad" "nosuch" =
        some (.str "Unable to find 'Destination City' in the map.") ∧
      depth_limited_search romaniaFragment "arad" "nosuch" 3 =
        .str "Unable to find 'Destination City' in the map." ∧
      iterative_deepening_search 5 romaniaFragment "arad" "nosuch" 1 =
        some (.str "Unable to find 'Destination City' in the map.")) :=
  ⟨(c7_canonicalization_and_validation romaniaFragment "arad" "Arad"
      5 3 1).1 (by decide),
   (c7_canonicalization_and_validation romaniaFragment "nosuch" "arad"
      5 3 1).2.1 (by decide) (by decide),
   (c7_canonicalization_and_validation romaniaFragment "arad" "nosuch"
      5 3 1).2.2.1 (by decide) (by decide) (by decide)⟩

/-!
## Visited-dictionary lemmas
-/

theorem vKeys_initVisited (ns : List String) :
    vKeys (initVisited ns) = ns := by
  simp only [vKeys, initVisited, List.map_map]
  exact List.map_id'' (fun _ => rfl) ns

theorem vKeys_vSet (v : List (String × Bool)) (k : String) :
    vKeys (vSet v k) = vKeys v := by
  simp only [vKeys, vSet, List.map_map]
  congr 1
  funext p
  simp only [Function.comp_apply]
  split <;> rfl

theorem vLookup_some_of_mem (v : List (String × Bool)) (k : String)
    (h : k ∈ vKeys v) : ∃ b, vLookup v k = some b := by
  cases hf : v.find? (fun p => p.1 = k) with
  | none =>
    rw [List.find?_eq_none] at hf
    rw [vKeys, List.mem_map] at h
    obtain ⟨p, hp, hk⟩ := h
    exact absurd (by simpa using hk) (by simpa using hf p hp)
  | some p =>
    exact ⟨p.2, by simp [vLookup, hf]⟩

theorem lookupD_some_of_mem (g : GraphDict) (k : String)
    (h : k ∈ gkeys g) : ∃ adj, lookupD g k = some adj := by
  cases hf : g.find? (fun p => p.1 = k) with
  | none =>
    rw [List.find?_eq_none] at hf
    rw [gkeys, List.mem_map] at h
    obtain ⟨p, hp, hk⟩ := h
    exact absurd (by simpa using hk) (by simpa using hf p hp)
  | some p =>
    exact ⟨p.2, by simp [lookupD, hf]⟩

/-!
## Result-shape classification
-/

theorem bfsChildren_inl_shape (d : String) (cur : SNode) :
    ∀ (adj : List (String × Int)) (q : List SNode)
      (v : List (String × Bool)) (r : PyResult),
      bfsChildren d cur adj q v = Sum.inl r →
      (∃ ids t, r = .path ids t) ∨ r = .keyError := by
  intro adj
  induction adj with
  | nil => intro q v r hr; simp [bfsChildren] at hr
  | cons hd rest ih =>
    obtain ⟨cid, c⟩ := hd
    intro q v r hr
    rw [bfsChildren_cons] at hr
    split at hr
    · injection hr with hr
      exact Or.inl ⟨_, _, hr.symm⟩
    · split at hr
      · injection hr with hr
        exact Or.inr hr.symm
      · exact ih q v r hr
      · exact ih (q ++ [SNode.child cid cur c]) v r hr

theorem bfsLoop_shape (g : GraphDict) (d : String) :
    ∀ (fuel : Nat) (q : List SNode) (v : List (String × Bool))
      (r : PyResult), bfsLoop g d fuel q v = some r →
      (∃ ids t, r = .path ids t) ∨ r = .str "Path not found" ∨
        r = .keyError := by
  intro fuel
  induction fuel with
  | zero => intro q v r hr; simp [bfsLoop] at hr
  | succ fuel ih =>
    intro q v r hr
    cases q with
    | nil =>
      simp only [bfsLoop, Option.some.injEq] at hr
      exact Or.inr (Or.inl hr.symm)
    | cons cur rest =>
      rw [bfsLoop_cons] at hr
      split at hr
      · injection hr with hr
        exact Or.inr (Or.inr hr.symm)
      · exact ih rest v r hr
      · split at hr
        · injection hr with hr
          exact Or.inr (Or.inr hr.symm)
        · split at hr
          · rename_i r' hc
            injection hr with hr
            rw [← hr]
            rcases bfsChildren_inl_shape d cur _ _ _ r' hc with h | h
            · exact Or.inl h
            · exact Or.inr (Or.inr h)
          · exact ih _ _ r hr

theorem dfsChildren_inl_shape (d : String) (cur : SNode) :
    ∀ (adj : List (String × Int)) (st : List SNode)
      (v : List (String × Bool)) (r : PyResult),
      dfsChildren d cur adj st v = Sum.inl r →
      (∃ ids t, r = .path ids t) ∨ r = .keyError := by
  intro adj
  induction adj with
  | nil => intro st v r hr; simp [dfsChildren] at hr
  | cons hd rest ih =>
    obtain ⟨cid, c⟩ := hd
    intro st v r hr
    rw [dfsChildren_cons] at hr
    split at hr
    · injection hr with hr
      exact Or.inl ⟨_, _, hr.symm⟩
    · split at hr
      · injection hr with hr
        exact Or.inr hr.symm
      · exact ih st v r hr
      · exact ih (SNode.child cid cur c :: st) v r hr

theorem dfsLoop_shape (g : GraphDict) (d : String) :
    ∀ (fuel : Nat) (st : List SNode) (v : List (String × Bool))
      (r : PyResult), dfsLoop g d fuel st v = some r →
      (∃ ids t, r = .path ids t) ∨ r = .str "Path not found" ∨
        r = .keyError := by
  intro fuel
  induction fuel with
  | zero => intro st v r hr; simp [dfsLoop] at hr
  | succ fuel ih =>
    intro st v r hr
    cases st with
    | nil =>
      simp only [dfsLoop, Option.some.injEq] at hr
      exact Or.inr (Or.inl hr.symm)
    | cons cur rest =>
      rw [dfsLoop_cons] at hr
      split at hr
      · injection hr with hr
        exact Or.inr (Or.inr hr.symm)
      · exact ih rest v r hr
      · split at hr
        · injection hr with hr
          exact Or.inr (Or.inr hr.symm)
        · split at hr
          · rename_i r' hc
            injection hr with hr
            rw [← hr]
            rcases dfsChildren_inl_shape d cur _ _ _ r' hc with h | h
            · exact Or.inl h
            · exact Or.inr (Or.inr h)
          · exact ih _ _ r hr

/-- `recursive_dls` produces only: a reconstructed path, Python `False`,
Python `None`, or a `KeyError` — in particular never a plain string such
as "Path not found". -/
theorem rdls_shape (g : GraphDict) (d : String) :
    ∀ (L : Nat) (cur : SNode),
      (∃ ids t, rdlsGo g d L cur = .path ids t) ∨
      rdlsGo g d L cur = .pyFalse ∨ rdlsGo g d L cur = .pyNone ∨
      rdlsGo g d L cur = .keyError := by
  intro L
  induction L with
  | zero =>
    intro cur
    rw [show rdlsGo g d 0 cur =
      (if cur.ident = d then retrace_path cur else .pyFalse) from rfl]
    split
    · exact Or.inl ⟨_, _, rfl⟩
    · exact Or.inr (Or.inl rfl)
  | succ L' ihL =>
    have kids : ∀ (cur : SNode) (cut : Bool) (l : List (String × Int)),
        (∃ ids t, rdlsKids (rdlsGo g d L') cur cut l = .path ids t) ∨
        rdlsKids (rdlsGo g d L') cur cut l = .pyFalse ∨
        rdlsKids (rdlsGo g d L') cur cut l = .pyNone ∨
        rdlsKids (rdlsGo g d L') cur cut l = .keyError := by
      intro cur cut l
      induction l generalizing cut with
      | nil =>
        rw [rdlsKids_nil]
        split
        · exact Or.inr (Or.inl rfl)
        · exact Or.inr (Or.inr (Or.inl rfl))
      | cons hd rest ih =>
        obtain ⟨cid, c⟩ := hd
        rw [rdlsKids_cons]
        rcases ihL (.child cid cur c) with ⟨ids, t, hh⟩ | hh | hh | hh <;>
          rw [hh]
        · exact Or.inl ⟨ids, t, rfl⟩
        · simpa [pyTruthy] using ih true
        · simpa [pyTruthy] using ih true
        · exact Or.inr (Or.inr (Or.inr rfl))
    intro cur
    rw [show rdlsGo g d (L' + 1) cur =
      (if cur.ident = d then retrace_path cur
      else
        match lookupD g cur.ident with
        | none => PyResult.keyError
        | some adj => rdlsKids (rdlsGo g d L') cur false adj) from rfl]
    split
    · exact Or.inl ⟨_, _, rfl⟩
    · split
      · exact Or.inr (Or.inr (Or.inr rfl))
      · exact kids cur false _

/-!
## On closed graphs no dictionary access raises
-/

theorem bfsChildren_closed (g : GraphDict) (d : String) (cur : SNode)
    (hc : closedGraphB g = true) :
    ∀ (adj : List (String × Int)) (q : List SNode)
      (v : List (String × Bool)),
      (∀ p ∈ adj, p ∈ adjOf g cur.ident) → vKeys v = gkeys g →
      (∀ r, bfsChildren d cur adj q v = Sum.inl r → r ≠ .keyError) ∧
      (∀ q' n, bfsChildren d cur adj q v = Sum.inr q' → n ∈ q' →
        n ∈ q ∨ n.ident ∈ gkeys g) := by
  intro adj
  induction adj with
  | nil =>
    intro q v _ _
    constructor
    · intro r hr; simp [bfsChildren] at hr
    · intro q' n hq' hn
      simp only [bfsChildren] at hq'
      injection hq' with hq'
      rw [← hq'] at hn
      exact Or.inl hn
  | cons hd rest ih =>
    obtain ⟨cid, c⟩ := hd
    intro q v hsub hkeys
    have hedge : (cid, c) ∈ adjOf g cur.ident := hsub _ (List.mem_cons_self _ _)
    have hsub' : ∀ p ∈ rest, p ∈ adjOf g cur.ident := fun p hp =>
      hsub p (List.mem_cons_of_mem _ hp)
    have hcid : cid ∈ gkeys g := closed_adj g hc hedge
    rw [bfsChildren_cons]
    by_cases hgoal : cid = d
    · rw [if_pos hgoal]
      constructor
      · intro r hr
        injection hr with hr
        rw [← hr]
        intro hcontra
        cases hcontra
      · intro q' n hq'
        exact Sum.noConfusion hq'
    · rw [if_neg hgoal]
      obtain ⟨b, hb⟩ := vLookup_some_of_mem v cid (hkeys ▸ hcid)
      rw [hb]
      cases b with
      | true => exact ih q v hsub' hkeys
      | false =>
        have := ih (q ++ [SNode.child cid cur c]) v hsub' hkeys
        refine ⟨this.1, ?_⟩
        intro q' n hq' hn
        rcases this.2 q' n hq' hn with h | h
        · rcases List.mem_append.1 h with h | h
          · exact Or.inl h
          · simp at h
            rw [h]
            exact Or.inr hcid
        · exact Or.inr h

theorem bfsLoop_closed (g : GraphDict) (d : String)
    (hc : closedGraphB g = true) :
    ∀ (fuel : Nat) (q : List SNode) (v : List (String × Bool)),
      (∀ n ∈ q, n.ident ∈ gkeys g) → vKeys v = gkeys g →
      bfsLoop g d fuel q v ≠ some .keyError := by
  intro fuel
  induction fuel with
  | zero => intro q v _ _ h; simp [bfsLoop] at h
  | succ fuel ih =>
    intro q v hq hkeys h
    cases q with
    | nil =>
      simp only [bfsLoop, Option.some.injEq] at h
      cases h
    | cons cur rest =>
      have hcur : cur.ident ∈ gkeys g := hq cur (List.mem_cons_self _ _)
      have hrest : ∀ n ∈ rest, n.ident ∈ gkeys g := fun n hn =>
        hq n (List.mem_cons_of_mem _ hn)
      rw [bfsLoop_cons] at h
      obtain ⟨b, hb⟩ := vLookup_some_of_mem v cur.ident (hkeys ▸ hcur)
      rw [hb] at h
      cases b with
      | true => exact ih rest v hrest hkeys h
      | false =>
        obtain ⟨adj, hadj⟩ := lookupD_some_of_mem g cur.ident hcur
        rw [hadj] at h
        have hkeys' : vKeys (vSet v cur.ident) = gkeys g := by
          rw [vKeys_vSet]; exact hkeys
        have hch := bfsChildren_closed g d cur hc adj rest (vSet v cur.ident)
          (by rw [adjOf_of_lookup g cur.ident adj hadj]; exact fun p hp => hp)
          hkeys'
        have h2 : (match bfsChildren d cur adj rest (vSet v cur.ident) with
            | Sum.inl r => some r
            | Sum.inr q' => bfsLoop g d fuel q' (vSet v cur.ident)) =
            some PyResult.keyError := h
        cases hcc : bfsChildren d cur adj rest (vSet v cur.ident) with
        | inl r' =>
          rw [hcc] at h2
          injection h2 with h2
          exact hch.1 r' hcc h2
        | inr q' =>
          rw [hcc] at h2
          refine ih q' (vSet v cur.ident) ?_ hkeys' h2
          intro n hn
          rcases hch.2 q' n hcc hn with hh | hh
          · exact hrest n hh
          · exact hh

theorem dfsChildren_closed (g : GraphDict) (d : String) (cur : SNode)
    (hc : closedGraphB g = true) :
    ∀ (adj : List (String × Int)) (st : List SNode)
      (v : List (String × Bool)),
      (∀ p ∈ adj, p ∈ adjOf g cur.ident) → vKeys v = gkeys g →
      (∀ r, dfsChildren d cur adj st v = Sum.inl r → r ≠ .keyError) ∧
      (∀ st' n, dfsChildren d cur adj st v = Sum.inr st' → n ∈ st' →
        n ∈ st ∨ n.ident ∈ gkeys g) := by
  intro adj
  induction adj with
  | nil =>
    intro st v _ _
    constructor
    · intro r hr; simp [dfsChildren] at hr
    · intro st' n hq' hn
      simp only [dfsChildren] at hq'
      injection hq' with hq'
      rw [← hq'] at hn
      exact Or.inl hn
  | cons hd rest ih =>
    obtain ⟨cid, c⟩ := hd
    intro st v hsub hkeys
    have hedge : (cid, c) ∈ adjOf g cur.ident := hsub _ (List.mem_cons_self _ _)
    have hsub' : ∀ p ∈ rest, p ∈ adjOf g cur.ident := fun p hp =>
      hsub p (List.mem_cons_of_mem _ hp)
    have hcid : cid ∈ gkeys g := closed_adj g hc hedge
    rw [dfsChildren_cons]
    by_cases hgoal : cid = d
    · rw [if_pos hgoal]
      constructor
      · intro r hr
        injection hr with hr
        rw [← hr]
        intro hcontra
        cases hcontra
      · intro st' n hq'
        exact Sum.noConfusion hq'
    · rw [if_neg hgoal]
      obtain ⟨b, hb⟩ := vLookup_some_of_mem v cid (hkeys ▸ hcid)
      rw [hb]
      cases b with
      | true => exact ih st v hsub' hkeys
      | false =>
        have := ih (SNode.child cid cur c :: st) v hsub' hkeys
        refine ⟨this.1, ?_⟩
        intro st' n hq' hn
        rcases this.2 st' n hq' hn with h | h
        · rcases List.mem_cons.1 h with h | h
          · rw [h]
            exact Or.inr hcid
          · exact Or.inl h
        · exact Or.inr h

theorem dfsLoop_closed (g : GraphDict) (d : String)
    (hc : closedGraphB g = true) :
    ∀ (fuel : Nat) (st : List SNode) (v : List (String × Bool)),
      (∀ n ∈ st, n.ident ∈ gkeys g) → vKeys v = gkeys g →
      dfsLoop g d fuel st v ≠ some .keyError := by
  intro fuel
  induction fuel with
  | zero => intro st v _ _ h; simp [dfsLoop] at h
  | succ fuel ih =>
    intro st v hq hkeys h
    cases st with
    | nil =>
      simp only [dfsLoop, Option.some.injEq] at h
      cases h
    | cons cur rest =>
      have hcur : cur.ident ∈ gkeys g := hq cur (List.mem_cons_self _ _)
      have hrest : ∀ n ∈ rest, n.ident ∈ gkeys g := fun n hn =>
        hq n (List.mem_cons_of_mem _ hn)
      rw [dfsLoop_cons] at h
      obtain ⟨b, hb⟩ := vLookup_some_of_mem v cur.ident (hkeys ▸ hcur)
      rw [hb] at h
      cases b with
      | true => exact ih rest v hrest hkeys h
      | false =>
        obtain ⟨adj, hadj⟩ := lookupD_some_of_mem g cur.ident hcur
        rw [hadj] at h
        have hkeys' : vKeys (vSet v cur.ident) = gkeys g := by
          rw [vKeys_vSet]; exact hkeys
        have hch := dfsChildren_closed g d cur hc adj rest (vSet v cur.ident)
          (by rw [adjOf_of_lookup g cur.ident adj hadj]; exact fun p hp => hp)
          hkeys'
        have h2 : (match dfsChildren d cur adj rest (vSet v cur.ident) with
            | Sum.inl r => some r
            | Sum.inr st' => dfsLoop g d fuel st' (vSet v cur.ident)) =
            some PyResult.keyError := h
        cases hcc : dfsChildren d cur adj rest (vSet v cur.ident) with
        | inl r' =>
          rw [hcc] at h2
          injection h2 with h2
          exact hch.1 r' hcc h2
        | inr st' =>
          rw [hcc] at h2
          refine ih st' (vSet v cur.ident) ?_ hkeys' h2
          intro n hn
          rcases hch.2 st' n hcc hn with hh | hh
          · exact hrest n hh
          · exact hh

theorem rdls_closed (g : GraphDict) (d : String)
    (hc : closedGraphB g = true) :
    ∀ (L : Nat) (cur : SNode), cur.ident ∈ gkeys g →
      rdlsGo g d L cur ≠ .keyError := by
  intro L
  induction L with
  | zero =>
    intro cur _ h
    rw [show rdlsGo g d 0 cur =
      (if cur.ident = d then retrace_path cur else .pyFalse) from rfl] at h
    split at h <;> cases h
  | succ L' ihL =>
    have kids : ∀ (cur : SNode), cur.ident ∈ gkeys g →
        ∀ (l : List (String × Int)), (∀ p ∈ l, p ∈ adjOf g cur.ident) →
        ∀ (cut : Bool), rdlsKids (rdlsGo g d L') cur cut l ≠ .keyError := by
      intro cur hcur l
      induction l with
      | nil =>
        intro _ cut h
        rw [rdlsKids_nil] at h
        split at h <;> cases h
      | cons hd rest ih =>
        obtain ⟨cid, c⟩ := hd
        intro hsub cut h
        have hedge : (cid, c) ∈ adjOf g cur.ident :=
          hsub _ (List.mem_cons_self _ _)
        have hsub' : ∀ p ∈ rest, p ∈ adjOf g cur.ident := fun p hp =>
          hsub p (List.mem_cons_of_mem _ hp)
        have hcid : cid ∈ gkeys g := closed_adj g hc hedge
        rw [rdlsKids_cons] at h
        cases hrec : rdlsGo g d L' (.child cid cur c) with
        | keyError => exact ihL (.child cid cur c) hcid hrec
        | path ids t => rw [hrec] at h; simp [pyTruthy] at h
        | str s =>
          rw [hrec] at h
          simp only [pyTruthy] at h
          split at h
          · cases h
          · exact ih hsub' true h
        | pyFalse =>
          rw [hrec] at h
          simp only [pyTruthy, Bool.false_eq_true, if_false] at h
          exact ih hsub' true h
        | pyNone =>
          rw [hrec] at h
          simp only [pyTruthy, Bool.false_eq_true, if_false] at h
          exact ih hsub' true h
    intro cur hcur h
    rw [show rdlsGo g d (L' + 1) cur =
      (if cur.ident = d then retrace_path cur
      else
        match lookupD g cur.ident with
        | none => PyResult.keyError
        | some adj => rdlsKids (rdlsGo g d L') cur false adj) from rfl] at h
    split at h
    · cases h
    · obtain ⟨adj, hadj⟩ := lookupD_some_of_mem g cur.ident hcur
      rw [hadj] at h
      exact kids cur hcur adj
        (by rw [adjOf_of_lookup g cur.ident adj hadj]; exact fun p hp => hp)
        false h

theorem dls_closed (g : GraphDict) (hc : closedGraphB g = true)
    (origin destination : String) (L : Nat) :
    depth_limited_search g origin destination L ≠ .keyError := by
  unfold depth_limited_search
  dsimp only
  split
  · intro h; cases h
  · split
    · intro h; cases h
    · split
      · intro h; cases h
      · rename_i h1 h2 h3
        exact rdls_closed g (pyTitle destination) hc L
          (SNode.root (pyTitle origin)) (not_not.1 h2)

theorem idsLoop_closed (g : GraphDict) (o d : String) (step : Nat)
    (hdls : ∀ D, depth_limited_search g o d D ≠ .keyError) :
    ∀ (fuel depth : Nat), idsLoop g o d step fuel depth ≠ some .keyError := by
  intro fuel
  induction fuel with
  | zero => intro depth h; simp [idsLoop] at h
  | succ fuel ih =>
    intro depth h
    rw [idsLoop_succ] at h
    cases hr : depth_limited_search g o d depth with
    | keyError => exact hdls depth hr
    | path ids t =>
      rw [hr] at h
      simp only [pyTruthy, if_true] at h
      injection h with h
      cases h
    | str s =>
      rw [hr] at h
      simp only [pyTruthy] at h
      split at h
      · injection h with h; cases h
      · exact ih (depth + step) h
    | pyFalse =>
      rw [hr] at h
      simp only [pyTruthy, Bool.false_eq_true, if_false] at h
      exact ih (depth + step) h
    | pyNone =>
      rw [hr] at h
      simp only [pyTruthy, Bool.false_eq_true, if_false] at h
      exact ih (depth + step) h

/-!
## Claim C9
-/

/-- C9 counterexample: the identifier `"X"` is referenced as a neighbour
of `"A"` in `danglingGraph` but is not a key of the dictionary.  Instead
of an empty adjacency list and a dead end, the lookups performed during
the searches raise: `recursive_dls` propagates a `KeyError` from
`graph_dict['X']` and `breadth_first_search` propagates one from
`visited_nodes['X']`, although a stored path `A → B → C` exists.  So an
absent identifier is not "treated as a dead end", and search operations
do fail with an error. -/
theorem c9_counterexample :
    ("X" ∉ gkeys danglingGraph) ∧
    recursive_dls danglingGraph (SNode.root "A") "C" 2 =
      PyResult.keyError ∧
    breadth_first_search 10 danglingGraph "A" "C" =
      some PyResult.keyError ∧
    stepsOk danglingGraph "A" [("B", 1), ("C", 1)] = true := by
  decide

/-- C9 (amended): when every identifier referenced in an adjacency list
is itself a key of the dictionary, no lookup performed during any of the
four searches raises — no search fails with a `KeyError`.  (On
dictionaries with dangling neighbour references a lookup raises instead
of yielding an empty list, as the counterexample shows.) -/
theorem c9_closed_graph_searches_never_raise (g : GraphDict)
    (hc : closedGraphB g = true) (origin destination : String)
    (fuel L step : Nat) :
    breadth_first_search fuel g origin destination ≠ some .keyError ∧
    depth_first_search fuel g origin destination ≠ some .keyError ∧
    depth_limited_search g origin destination L ≠ .keyError ∧
    iterative_deepening_search fuel g origin destination step ≠
      some .keyError := by
  refine ⟨?_, ?_, dls_closed g hc origin destination L, ?_⟩
  · unfold breadth_first_search
    dsimp only
    split
    · intro h; injection h with h; cases h
    · split
      · intro h; injection h with h; cases h
      · split
        · intro h; injection h with h; cases h
        · rename_i h1 h2 h3
          refine bfsLoop_closed g (pyTitle destination) hc fuel _ _ ?_ ?_
          · intro n hn
            simp at hn
            rw [hn]
            exact not_not.1 h2
          · exact vKeys_initVisited (gkeys g)
  · unfold depth_first_search
    dsimp only
    split
    · intro h; injection h with h; cases h
    · split
      · intro h; injection h with h; cases h
      · split
        · intro h; injection h with h; cases h
        · rename_i h1 h2 h3
          refine dfsLoop_closed g (pyTitle destination) hc fuel _ _ ?_ ?_
          · intro n hn
            simp at hn
            rw [hn]
            exact not_not.1 h2
          · exact vKeys_initVisited (gkeys g)
  · unfold iterative_deepening_search
    dsimp only
    split
    · intro h; injection h with h; cases h
    · split
      · intro h; injection h with h; cases h
      · split
        · intro h; injection h with h; cases h
        · exact idsLoop_closed g (pyTitle origin) (pyTitle destination)
            step (fun D => dls_closed g hc _ _ D) fuel 0

/-- Witness for C9 (amended): the Romania fragment is closed, and none
of the four searches raise on it. -/
theorem c9_witness :
    breadth_first_search 50 romaniaFragment "arad" "oradea" ≠
      some PyResult.keyError ∧
    depth_first_search 50 romaniaFragment "arad" "oradea" ≠
      some PyResult.keyError ∧
    depth_limited_search romaniaFragment "arad" "oradea" 7 ≠
      PyResult.keyError ∧
    iterative_deepening_search 50 romaniaFragment "arad" "oradea" 1 ≠
      some PyResult.keyError :=
  c9_closed_graph_searches_never_raise romaniaFragment (by decide)
    "arad" "oradea" 50 7 1

/-!
## Claim C10
-/

/-- C10 counterexample: when BFS exhausts its frontier it returns the
string `"Path not found"` — without the trailing period the claim
states — and when `depth_limited_search` reports terminal failure it
returns Python `False` or `None`, not a string at all (on `deadEndGraph`
with limit 3 it returns `False`). -/
theorem c10_counterexample :
    breadth_first_search 10 deadEndGraph "A" "C" =
      some (.str "Path not found") ∧
    depth_first_search 10 deadEndGraph "A" "C" =
      some (.str "Path not found") ∧
    ("Path not found" : String) ≠ "Path not found." ∧
    depth_limited_search deadEndGraph "A" "C" 3 = PyResult.pyFalse ∧
    PyResult.pyFalse ≠ PyResult.str "Path not found." := by
  decide

/-- C10 (amended): when `breadth_first_search` or `depth_first_search`
exhausts its frontier the loop returns the string `"Path not found"`
(no trailing period) as a value; every string a search loop can return
is exactly that one (other outcomes are a reconstructed path or a
propagated `KeyError`); and `depth_limited_search`'s terminal failures
are the falsy values Python `False`/`None` — `recursive_dls` never
produces a plain string at all. -/
theorem c10_exhausted_frontier_values (g : GraphDict) (d : String) :
    (∀ (v : List (String × Bool)) (fuel : Nat),
      bfsLoop g d (fuel + 1) [] v = some (.str "Path not found")) ∧
    (∀ (fuel : Nat) (q : List SNode) (v : List (String × Bool))
       (r : PyResult), bfsLoop g d fuel q v = some r →
      (∃ ids t, r = .path ids t) ∨ r = .str "Path not found" ∨
        r = .keyError) ∧
    (∀ (v : List (String × Bool)) (fuel : Nat),
      dfsLoop g d (fuel + 1) [] v = some (.str "Path not found")) ∧
    (∀ (fuel : Nat) (st : List SNode) (v : List (String × Bool))
       (r : PyResult), dfsLoop g d fuel st v = some r →
      (∃ ids t, r = .path ids t) ∨ r = .str "Path not found" ∨
        r = .keyError) ∧
    (∀ (L : Nat) (cur : SNode),
      (∃ ids t, recursive_dls g cur d L = .path ids t) ∨
      recursive_dls g cur d L = .pyFalse ∨
      recursive_dls g cur d L = .pyNone ∨
      recursive_dls g cur d L = .keyError) := by
  exact ⟨fun v fuel => rfl, bfsLoop_shape g d, fun v fuel => rfl,
    dfsLoop_shape g d, rdls_shape g d⟩

/-- Witness for C10 (amended): a concrete exhausted-frontier BFS run
returns exactly `"Path not found"`, and the classification holds of it. -/
theorem c10_witness :
    bfsLoop deadEndGraph "C" 1 [] (initVisited (gkeys deadEndGraph)) =
      some (.str "Path not found") ∧
    ((∃ ids t, (PyResult.str "Path not found") = .path ids t) ∨
      (PyResult.str "Path not found") = .str "Path not found" ∨
      (PyResult.str "Path not found") = .keyError) ∧
    ((∃ ids t, depth_limited_search deadEndGraph "A" "C" 3 = .path ids t) ∨
      depth_limited_search deadEndGraph "A" "C" 3 = .pyFalse ∨
      depth_limited_search deadEndGraph "A" "C" 3 = .pyNone ∨
      depth_limited_search deadEndGraph "A" "C" 3 = .keyError) :=
  ⟨(c10_exhausted_frontier_values deadEndGraph "C").1 _ 0,
   (c10_exhausted_frontier_values deadEndGraph "C").2.1 10
     [SNode.root "A"] (initVisited (gkeys deadEndGraph)) _ (by decide),
   (c10_exhausted_frontier_values deadEndGraph "C").2.2.2.2 3
     (SNode.root "A")⟩

/-!
## Claim C4
-/

/-- C4 counterexample: on `c4Graph` the only stored path from `A` to
`C` has 3 edges (no identifier within 2 steps of `A` is `C`, by
`reachWithin_complete`), so with limit 2 every path exceeds the limit;
the claim says the search then returns a cutoff/failure outcome, but it
raises a `KeyError` instead (the dangling neighbour `X` is reached with
remaining depth 1). -/
theorem c4_counterexample :
    ("C" ∉ reachWithin c4Graph 2 "A") ∧
    ("C" ∈ reachWithin c4Graph 3 "A") ∧
    depth_limited_search c4Graph "A" "C" 2 = PyResult.keyError ∧
    PyResult.keyError ≠ PyResult.pyFalse ∧
    PyResult.keyError ≠ PyResult.pyNone := by
  decide

/-- C4 (amended): `depth_limited_search` with limit `L` never returns a
path of more than `L` edges (more than `L + 1` identifiers) — this part
holds for every graph; and when the graph has no dangling neighbour
references, the endpoints are distinct canonicalized keys, and every
stored path from origin to destination has more than `L` edges, the
search returns Python `False` or `None` (cutoff/failure), never a path —
with dangling references it can instead raise a `KeyError`, as the
counterexample shows. -/
theorem c4_depth_limit_bound (g : GraphDict)
    (origin destination : String) (L : Nat) :
    (∀ ids t, depth_limited_search g origin destination L = .path ids t →
      ids.length ≤ L + 1) ∧
    (closedGraphB g = true →
      pyTitle origin ≠ pyTitle destination →
      pyTitle origin ∈ gkeys g →
      pyTitle destination ∈ gkeys g →
      (∀ steps, stepsOk g (pyTitle origin) steps = true →
        endOfSteps (pyTitle origin) steps = pyTitle destination →
        L < steps.length) →
      depth_limited_search g origin destination L = .pyFalse ∨
      depth_limited_search g origin destination L = .pyNone) := by
  constructor
  · intro ids t h
    exact (dls_good g origin destination L ids t h).2
  · intro hc hne ho hd hshort
    have hval : depth_limited_search g origin destination L =
        recursive_dls g (SNode.root (pyTitle origin))
          (pyTitle destination) L := by
      unfold depth_limited_search
      dsimp only
      rw [if_neg hne, if_neg (not_not_intro ho), if_neg (not_not_intro hd)]
    rcases rdls_shape g (pyTitle destination) L
        (SNode.root (pyTitle origin)) with ⟨ids, t, hp⟩ | h | h | h
    · exfalso
      have hdls : depth_limited_search g origin destination L =
          .path ids t := by rw [hval]; exact hp
      obtain ⟨⟨steps, hok, hids, _, hend⟩, hlen⟩ :=
        dls_good g origin destination L ids t hdls
      have : steps.length + 1 ≤ L + 1 := by
        rw [hids] at hlen
        simpa [pathOfSteps] using hlen
      exact absurd (hshort steps hok hend) (by omega)
    · exact Or.inl (by rw [hval]; exact h)
    · exact Or.inr (by rw [hval]; exact h)
    · exfalso
      exact rdls_closed g (pyTitle destination) hc L
        (SNode.root (pyTitle origin)) ho h

/-- Witness for C4 (amended): on `deadEndGraph` no stored path from `A`
reaches `C` at all (so every such path trivially has more than 1 edge),
and `depth_limited_search` with limit 1 indeed returns `False` or
`None`. -/
theorem c4_witness :
    depth_limited_search deadEndGraph "A" "C" 1 = PyResult.pyFalse ∨
    depth_limited_search deadEndGraph "A" "C" 1 = PyResult.pyNone :=
  (c4_depth_limit_bound deadEndGraph "A" "C" 1).2 (by decide) (by decide)
    (by decide) (by decide)
    (fun steps h1 h2 =>
      no_short_path_of_not_reachWithin deadEndGraph (by decide)
        steps h1 h2)

/-!
## Claim C5
-/

theorem dls_title (g : GraphDict) (o d : String) (D : Nat) :
    depth_limited_search g (pyTitle o) (pyTitle d) D =
      depth_limited_search g o d D := by
  unfold depth_limited_search
  rw [pyTitle_idem, pyTitle_idem]

theorem dls_path_validation (g : GraphDict) (o d : String) (L : Nat)
    (ids : List String) (t : Int)
    (h : depth_limited_search g o d L = .path ids t) :
    pyTitle o ≠ pyTitle d ∧ pyTitle o ∈ gkeys g ∧ pyTitle d ∈ gkeys g := by
  unfold depth_limited_search at h
  dsimp only at h
  split at h
  · cases h
  · split at h
    · cases h
    · split at h
      · cases h
      · rename_i h1 h2 h3
        exact ⟨h1, not_not.1 h2, not_not.1 h3⟩

theorem dls_unfold_valid (g : GraphDict) (o d : String) (D : Nat)
    (hne : pyTitle o ≠ pyTitle d) (ho : pyTitle o ∈ gkeys g)
    (hd : pyTitle d ∈ gkeys g) :
    depth_limited_search g o d D =
      recursive_dls g (SNode.root (pyTitle o)) (pyTitle d) D := by
  unfold depth_limited_search
  dsimp only
  rw [if_neg hne, if_neg (not_not_intro ho), if_neg (not_not_intro hd)]

/-- Behaviour of the iterative-deepening loop with step size 1 when the
depth-limited results below `L` are all falsy: the loop walks up to `L`
and returns the first truthy result. -/
theorem idsLoop_run (g : GraphDict) (o d : String) (L : Nat)
    (r : PyResult) (hstop : depth_limited_search g o d L = r)
    (htr : pyTruthy r = true) (hnk : r ≠ .keyError)
    (hfal : ∀ D, D < L →
      depth_limited_search g o d D = .pyFalse ∨
      depth_limited_search g o d D = .pyNone) :
    ∀ (fuel depth : Nat), depth ≤ L → L - depth < fuel →
      idsLoop g o d 1 fuel depth = some r := by
  intro fuel
  induction fuel with
  | zero => intro depth _ hlt; omega
  | succ fuel ih =>
    intro depth hdle hfuel
    rw [idsLoop_succ]
    by_cases hdeq : depth = L
    · rw [hdeq, hstop]
      cases r with
      | path ids t => rfl
      | str s => simp only [pyTruthy] at htr; simp [pyTruthy, htr]
      | pyFalse => simp [pyTruthy] at htr
      | pyNone => simp [pyTruthy] at htr
      | keyError => exact absurd rfl hnk
    · have hlt : depth < L := lt_of_le_of_ne hdle hdeq
      rcases hfal depth hlt with h | h <;> rw [h] <;>
        simp only [pyTruthy, Bool.false_eq_true, if_false] <;>
        exact ih (depth + 1) (by omega) (by omega)

/-- C5 counterexample: on `c5Graph` the smallest depth at which
`depth_limited_search` returns a path is 3 (limits 0 and 1 return
`False`), but `iterative_deepening_search` with step 1 does not return
that result: at depth limit 2 the depth-limited search reaches the
dangling neighbour `X` (listed after the fruitful branch `B`) and raises
a `KeyError`, which terminates the deepening loop before depth 3. -/
theorem c5_counterexample :
    depth_limited_search c5Graph "A" "C" 0 = PyResult.pyFalse ∧
    depth_limited_search c5Graph "A" "C" 1 = PyResult.pyFalse ∧
    depth_limited_search c5Graph "A" "C" 2 = PyResult.keyError ∧
    depth_limited_search c5Graph "A" "C" 3 =
      PyResult.path ["A", "B", "D", "C"] 3 ∧
    iterative_deepening_search 10 c5Graph "A" "C" 1 =
      some PyResult.keyError ∧
    (some PyResult.keyError ≠
      some (PyResult.path ["A", "B", "D", "C"] 3)) := by
  decide

/-- C5 (amended): with step size 1, on a graph with no dangling
neighbour references, if `depth_limited_search` returns a path at depth
limit `L` and returns no path at any smaller limit, then
`iterative_deepening_search` (with enough loop fuel) returns exactly
that result — the same identifier sequence and the same cost.  (With
dangling references the deepening loop can instead terminate with a
`KeyError` raised at a smaller depth, as the counterexample shows.) -/
theorem c5_ids_equals_first_successful_dls (g : GraphDict)
    (origin destination : String) (L : Nat) (ids : List String) (t : Int)
    (hc : closedGraphB g = true)
    (hL : depth_limited_search g origin destination L = .path ids t)
    (hmin : ∀ L', L' < L → ∀ ids' t',
      depth_limited_search g origin destination L' ≠ .path ids' t') :
    ∀ fuel, L < fuel →
      iterative_deepening_search fuel g origin destination 1 =
        some (.path ids t) := by
  obtain ⟨hne, ho, hd⟩ := dls_path_validation g origin destination L ids t hL
  intro fuel hfuel
  unfold iterative_deepening_search
  dsimp only
  rw [if_neg (fun hh => hne hh.symm), if_neg (not_not_intro ho),
    if_neg (not_not_intro hd)]
  refine idsLoop_run g (pyTitle origin) (pyTitle destination) L
    (.path ids t) ?_ rfl (by intro hh; cases hh) ?_ fuel 0
    (Nat.zero_le L) (by omega)
  · rw [dls_title]
    exact hL
  · intro D hD
    have hval := dls_unfold_valid g origin destination D hne ho hd
    rw [dls_title, hval]
    rcases rdls_shape g (pyTitle destination) D
        (SNode.root (pyTitle origin)) with ⟨ids', t', hp⟩ | h | h | h
    · exfalso
      exact hmin D hD ids' t' (by rw [hval]; exact hp)
    · exact Or.inl h
    · exact Or.inr h
    · exfalso
      exact rdls_closed g (pyTitle destination) hc D
        (SNode.root (pyTitle origin)) ho h

/-- Witness for C5 (amended): on the Romania fragment the smallest
successful depth limit for Arad→Oradea is 2, and iterative deepening
with step 1 returns exactly that result. -/
theorem c5_witness :
    iterative_deepening_search 4 romaniaFragment "arad" "oradea" 1 =
      some (.path ["Arad", "Zerind", "Oradea"] 146) :=
  c5_ids_equals_first_successful_dls romaniaFragment "arad" "oradea" 2
    ["Arad", "Zerind", "Oradea"] 146 (by decide) (by decide)
    (by
      intro L' hL' ids' t' hcontra
      interval_cases L'
      · rw [show depth_limited_search romaniaFragment "arad" "oradea" 0 =
            PyResult.pyFalse from by decide] at hcontra
        cases hcontra
      · rw [show depth_limited_search romaniaFragment "arad" "oradea" 1 =
            PyResult.pyFalse from by decide] at hcontra
        cases hcontra)
    4 (by decide)

/-!
## Claim C6
-/

theorem idsLoop_forever (g : GraphDict) (o d : String) (step : Nat)
    (hfal : ∀ D, depth_limited_search g o d D = .pyFalse ∨
      depth_limited_search g o d D = .pyNone) :
    ∀ (fuel depth : Nat), idsLoop g o d step fuel depth = none := by
  intro fuel
  induction fuel with
  | zero => intro depth; rfl
  | succ fuel ih =>
    intro depth
    rw [idsLoop_succ]
    rcases hfal depth with h | h <;> rw [h] <;>
      simp only [pyTruthy, Bool.false_eq_true, if_false] <;>
      exact ih (depth + step)

/-- C6 counterexample (both halves of the claim fail as stated):
* on the finite acyclic closed graph `deadEndGraph` (longest simple
  path: one edge) with the unreachable destination `C`, the deepening
  loop is still running after 10 iterations — depth limits 0..9, all far
  beyond the longest simple path — refuting "on acyclic/finite graphs
  the search still terminates once the depth limit exceeds the longest
  simple path";
* on `c6DanglingGraph` (destination `C` present, distinct from the
  origin, and unreachable) the loop terminates at the third iteration
  with a `KeyError`, refuting "does not terminate" for graphs with
  dangling neighbour references. -/
theorem c6_counterexample :
    closedGraphB deadEndGraph = true ∧
    iterative_deepening_search 10 deadEndGraph "A" "C" 1 = none ∧
    iterative_deepening_search 10 c6DanglingGraph "A" "C" 1 =
      some PyResult.keyError := by
  decide

/-- C6 (amended): when the graph has no dangling neighbour references,
both endpoints are distinct canonicalized keys, and no stored-edge path
connects the origin to the destination, `iterative_deepening_search`
never terminates: for every loop fuel it has still produced no result
(`recursive_dls` returns only the falsy `False`/`None` at every depth,
so no failure signal ever stops the deepening loop).  This includes
finite acyclic graphs: exhausting the whole tree below the origin
yields `False`/`None` exactly like a cutoff does.  (With dangling
references the loop can instead stop with a `KeyError`, as the
counterexample shows.) -/
theorem c6_unreachable_destination_loops_forever (g : GraphDict)
    (origin destination : String) (step : Nat)
    (hc : closedGraphB g = true)
    (hne : pyTitle origin ≠ pyTitle destination)
    (ho : pyTitle origin ∈ gkeys g)
    (hd : pyTitle destination ∈ gkeys g)
    (hunreach : ∀ steps, stepsOk g (pyTitle origin) steps = true →
      endOfSteps (pyTitle origin) steps ≠ pyTitle destination) :
    ∀ fuel, iterative_deepening_search fuel g origin destination step =
      none := by
  intro fuel
  unfold iterative_deepening_search
  dsimp only
  rw [if_neg (fun hh => hne hh.symm), if_neg (not_not_intro ho),
    if_neg (not_not_intro hd)]
  refine idsLoop_forever g (pyTitle origin) (pyTitle destination) step
    ?_ fuel 0
  intro D
  have hval := dls_unfold_valid g origin destination D hne ho hd
  rw [dls_title, hval]
  rcases rdls_shape g (pyTitle destination) D
      (SNode.root (pyTitle origin)) with ⟨ids', t', hp⟩ | h | h | h
  · exfalso
    have hdls : depth_limited_search g origin destination D =
        .path ids' t' := by rw [hval]; exact hp
    obtain ⟨⟨steps, hok, _, _, hend⟩, _⟩ :=
      dls_good g origin destination D ids' t' hdls
    exact hunreach steps hok hend
  · exact Or.inl h
  · exact Or.inr h
  · exfalso
    exact rdls_closed g (pyTitle destination) hc D
      (SNode.root (pyTitle origin)) ho h

/-- Witness for C6 (amended): on `deadEndGraph` (where `C` is
unreachable from `A`) the deepening loop has produced no result after
7 iterations; instantiating the theorem at fuel 7. -/
theorem c6_witness :
    iterative_deepening_search 7 deadEndGraph "A" "C" 1 = none :=
  c6_unreachable_destination_loops_forever deadEndGraph "A" "C" 1
    (by decide) (by decide) (by decide) (by decide)
    (by
      intro steps h1 h2
      match steps with
      | [] => exact absurd h2 (by decide)
      | (y, c) :: rest =>
        rw [stepsOk, Bool.and_eq_true] at h1
        have hadj : adjOf deadEndGraph (pyTitle "A") = [("B", 1)] := by
          decide
        have hhead := mem_of_contains (hadj ▸ h1.1)
        rw [List.mem_singleton] at hhead
        injection hhead with hy hcc
        rw [hy] at h1 h2
        match rest with
        | [] =>
          rw [show endOfSteps (pyTitle "A") [("B", c)] = "B" from rfl] at h2
          exact absurd h2 (by decide)
        | (z, e) :: rest' =>
          have h1' := h1.2
          rw [stepsOk, Bool.and_eq_true] at h1'
          have hadjB : adjOf deadEndGraph "B" = [] := by decide
          rw [hadjB] at h1'
          exact Bool.noConfusion h1'.1)
    7

/-!
## Claim C8
-/

/-- C8 (code bug): the frontier-membership half of the enqueue guard is
vacuous.  The state below is the one `breadth_first_search` reaches on
`c8ExampleGraph` searching `A → E` while expanding `C` (`A`, `B`, `C`
marked visited, one node for `D` — generated from `B` — already in the
queue).  The membership test compares the freshly created `Node` object
against the identifier *strings* of the queue, so it is `false` even
though the queue's identifier list is exactly `["D"]`; consequently a
second node with identifier `D` is appended while the first is still in
the frontier, and the queue ends with two `D` entries. -/
theorem c8_frontier_membership_check_vacuous :
    (List.map SNode.ident
        [SNode.child "D" (SNode.child "B" (SNode.root "A") 1) 1] = ["D"] ∧
      nodeInIdentifierList
        (SNode.child "D" (SNode.child "C" (SNode.root "A") 1) 1)
        ["D"] = false) ∧
    bfsChildren "E" (SNode.child "C" (SNode.root "A") 1) [("D", 1)]
        [SNode.child "D" (SNode.child "B" (SNode.root "A") 1) 1]
        (vSet (vSet (vSet (initVisited (gkeys c8ExampleGraph)) "A") "B")
          "C") =
      Sum.inr [SNode.child "D" (SNode.child "B" (SNode.root "A") 1) 1,
               SNode.child "D" (SNode.child "C" (SNode.root "A") 1) 1] ∧
    List.map SNode.ident
        [SNode.child "D" (SNode.child "B" (SNode.root "A") 1) 1,
         SNode.child "D" (SNode.child "C" (SNode.root "A") 1) 1] =
      ["D", "D"] := by
  decide

/-!
## Claim C2: counterexample
-/

/-- C2 counterexample: on `danglingGraph` the nodes `A` and `C` both
exist and are connected by the stored path `A → B → C` (two edges), yet
`breadth_first_search` returns no path at all: expanding `A` it creates
a child for the dangling neighbour `X` and `visited_nodes['X']` raises a
`KeyError`. -/
theorem c2_counterexample :
    stepsOk danglingGraph "A" [("B", 1), ("C", 1)] = true ∧
    endOfSteps "A" [("B", 1), ("C", 1)] = "C" ∧
    "A" ∈ gkeys danglingGraph ∧ "C" ∈ gkeys danglingGraph ∧
    ("A" : String) ≠ "C" ∧
    breadth_first_search 10 danglingGraph "A" "C" =
      some PyResult.keyError ∧
    breadth_first_search 100 danglingGraph "A" "C" =
      some PyResult.keyError := by
  decide

/-!
## Claim C2: infrastructure

The optimality proof processes the queue level by level.  The lemmas
below characterize the visited-dictionary updates and the two possible
outcomes of one child-processing pass (a goal hit, or a queue extension
that covers every neighbour of the expanded node).
-/

theorem vSet_lookup_ne (v : List (String × Bool)) (k k' : String)
    (h : k' ≠ k) : vLookup (vSet v k) k' = vLookup v k' := by
  induction v with
  | nil => rfl
  | cons a rest ih =>
    obtain ⟨a1, a2⟩ := a
    simp only [vSet, List.map_cons]
    by_cases ha : a1 = k'
    · subst ha
      rw [if_neg (by simpa using h)]
      simp [vLookup, List.find?]
    · by_cases hak : a1 = k
      · rw [if_pos (by simpa using hak)]
        simp only [vLookup, List.find?]
        rw [show (decide (a1 = k')) = false from by simpa using ha]
        simpa [vLookup, vSet] using ih
      · rw [if_neg (by simpa using hak)]
        simp only [vLookup, List.find?]
        rw [show (decide (a1 = k')) = false from by simpa using ha]
        simpa [vLookup, vSet] using ih

theorem vSet_lookup_self (v : List (String × Bool)) (k : String)
    (b : Bool) (h : vLookup v k = some b) :
    vLookup (vSet v k) k = some true := by
  induction v with
  | nil => simp [vLookup] at h
  | cons a rest ih =>
    obtain ⟨a1, a2⟩ := a
    simp only [vSet, List.map_cons]
    by_cases ha : a1 = k
    · subst ha
      rw [if_pos rfl]
      simp [vLookup, List.find?]
    · rw [if_neg (by simpa using ha)]
      simp only [vLookup, List.find?] at h ⊢
      rw [show (decide (a1 = k)) = false from by simpa using ha] at h ⊢
      simpa [vLookup, vSet] using ih (by simpa [vLookup] using h)

theorem vSet_preserves_true (v : List (String × Bool)) (k z : String)
    (h : vLookup v z = some true) :
    vLookup (vSet v k) z = some true := by
  by_cases hz : z = k
  · subst hz
    exact vSet_lookup_self v z true h
  · rw [vSet_lookup_ne v k z hz]
    exact h

theorem vSet_true_cases (v : List (String × Bool)) (k z : String)
    (h : vLookup (vSet v k) z = some true) :
    z = k ∨ vLookup v z = some true := by
  by_cases hz : z = k
  · exact Or.inl hz
  · rw [vSet_lookup_ne v k z hz] at h
    exact Or.inr h

theorem vLookup_initVisited (ns : List String) (y : String) (b : Bool)
    (h : vLookup (initVisited ns) y = some b) : b = false := by
  induction ns with
  | nil => simp [vLookup, initVisited] at h
  | cons a rest ih =>
    simp only [initVisited, List.map_cons, vLookup, List.find?] at h
    by_cases ha : a = y
    · rw [show (decide (a = y)) = true from by simpa using ha] at h
      simp at h
      exact h
    · rw [show (decide (a = y)) = false from by simpa using ha] at h
      exact ih (by simpa [vLookup, initVisited] using h)

/-- If some neighbour in the remaining adjacency list is the
destination, the child-processing pass returns a reconstructed path to a
destination child of the expanded node (the searches never raise before
reaching it when every neighbour is a key of the visited dictionary). -/
theorem bfsChildren_finds (d : String) (cur : SNode) :
    ∀ (adj : List (String × Int)) (q : List SNode)
      (v : List (String × Bool)),
      (∀ p ∈ adj, p.1 ∈ vKeys v) →
      ∀ cc : Int, (d, cc) ∈ adj →
      ∃ c', bfsChildren d cur adj q v =
        Sum.inl (retrace_path (SNode.child d cur c')) := by
  intro adj
  induction adj with
  | nil => intro q v _ cc hm; cases hm
  | cons hd rest ih =>
    obtain ⟨z, c⟩ := hd
    intro q v hall cc hm
    rw [bfsChildren_cons]
    by_cases hz : z = d
    · subst hz
      exact ⟨c, by rw [if_pos rfl]⟩
    · rw [if_neg hz]
      have hm' : (d, cc) ∈ rest := by
        rcases List.mem_cons.1 hm with h | h
        · exact absurd (congrArg Prod.fst h.symm) hz
        · exact h
      have hall' : ∀ p ∈ rest, p.1 ∈ vKeys v := fun p hp =>
        hall p (List.mem_cons_of_mem _ hp)
      obtain ⟨b, hb⟩ := vLookup_some_of_mem v z
        (hall (z, c) (List.mem_cons_self _ _))
      rw [hb]
      cases b with
      | true => exact ih q v hall' cc hm'
      | false => exact ih (q ++ [SNode.child z cur c]) v hall' cc hm'

/-- If no neighbour in the remaining adjacency list is the destination
and all of them are keys of the visited dictionary, the pass extends the
queue, and afterwards every one of those neighbours is either marked
visited or present (by identifier) in the resulting queue. -/
theorem bfsChildren_no_d (d : String) (cur : SNode) :
    ∀ (adj : List (String × Int)) (q : List SNode)
      (v : List (String × Bool)),
      (∀ p ∈ adj, p.1 ≠ d ∧ p.1 ∈ vKeys v) →
      ∃ new, bfsChildren d cur adj q v = Sum.inr (q ++ new) ∧
        (∀ m ∈ new, ∃ cid c, (cid, c) ∈ adj ∧ m = SNode.child cid cur c) ∧
        (∀ cid c, (cid, c) ∈ adj → vLookup v cid = some true ∨
          cid ∈ (q ++ new).map SNode.ident) := by
  intro adj
  induction adj with
  | nil =>
    intro q v _
    exact ⟨[], by simp [bfsChildren], by simp, by simp⟩
  | cons hd rest ih =>
    obtain ⟨z, c⟩ := hd
    intro q v hall
    have hz := hall (z, c) (List.mem_cons_self _ _)
    have hall' : ∀ p ∈ rest, p.1 ≠ d ∧ p.1 ∈ vKeys v := fun p hp =>
      hall p (List.mem_cons_of_mem _ hp)
    rw [bfsChildren_cons, if_neg hz.1]
    obtain ⟨b, hb⟩ := vLookup_some_of_mem v z hz.2
    rw [hb]
    cases b with
    | true =>
      obtain ⟨new, hres, hchar, hcov⟩ := ih q v hall'
      refine ⟨new, hres, ?_, ?_⟩
      · intro m hm
        obtain ⟨cid, cc, hmem, hm'⟩ := hchar m hm
        exact ⟨cid, cc, List.mem_cons_of_mem _ hmem, hm'⟩
      · intro cid cc hm
        rcases List.mem_cons.1 hm with h | h
        · left
          rw [show cid = z from congrArg Prod.fst h]
          exact hb
        · exact hcov cid cc h
    | false =>
      obtain ⟨new, hres, hchar, hcov⟩ := ih (q ++ [SNode.child z cur c]) v hall'
      refine ⟨SNode.child z cur c :: new, ?_, ?_, ?_⟩
      · rw [hres, List.append_assoc]
        rfl
      · intro m hm
        rcases List.mem_cons.1 hm with h | h
        · exact ⟨z, c, List.mem_cons_self _ _, h⟩
        · obtain ⟨cid, cc, hmem, hm'⟩ := hchar m h
          exact ⟨cid, cc, List.mem_cons_of_mem _ hmem, hm'⟩
      · intro cid cc hm
        rcases List.mem_cons.1 hm with h | h
        · right
          rw [show cid = z from congrArg Prod.fst h]
          rw [List.mem_map]
          exact ⟨SNode.child z cur c,
            by simp only [List.mem_append, List.mem_cons]; tauto, rfl⟩
        · rcases hcov cid cc h with hh | hh
          · exact Or.inl hh
          · right
            rw [List.mem_map] at hh ⊢
            obtain ⟨m, hmm, hid⟩ := hh
            refine ⟨m, ?_, hid⟩
            rw [List.append_assoc] at hmm
            simpa using (by simpa using hmm)

/-- Once the BFS loop has produced a result, more fuel does not change
it. -/
theorem bfsLoop_mono (g : GraphDict) (d : String) :
    ∀ (fuel : Nat) (q : List SNode) (v : List (String × Bool))
      (r : PyResult), bfsLoop g d fuel q v = some r →
      ∀ fuel', fuel ≤ fuel' → bfsLoop g d fuel' q v = some r := by
  intro fuel
  induction fuel with
  | zero => intro q v r h; simp [bfsLoop] at h
  | succ fuel ih =>
    intro q v r h fuel' hle
    obtain ⟨f2, rfl⟩ : ∃ f2, fuel' = f2 + 1 := by
      cases fuel' with
      | zero => omega
      | succ f2 => exact ⟨f2, rfl⟩
    have hle2 : fuel ≤ f2 := by omega
    cases q with
    | nil => exact h
    | cons cur rest =>
      rw [bfsLoop_cons] at h ⊢
      cases hv : vLookup v cur.ident with
      | none => rw [hv] at h; exact h
      | some b =>
        rw [hv] at h
        cases b with
        | true => exact ih rest v r h f2 hle2
        | false =>
          cases hl : lookupD g cur.ident with
          | none => rw [hl] at h; exact h
          | some adj =>
            rw [hl] at h
            have h3 : (match bfsChildren d cur adj rest (vSet v cur.ident)
                with
                | Sum.inl r' => some r'
                | Sum.inr q' =>
                  bfsLoop g d fuel q' (vSet v cur.ident)) = some r := h
            show (match bfsChildren d cur adj rest (vSet v cur.ident) with
              | Sum.inl r' => some r'
              | Sum.inr q' => bfsLoop g d f2 q' (vSet v cur.ident)) = some r
            cases hcc : bfsChildren d cur adj rest (vSet v cur.ident) with
            | inl r' =>
              rw [hcc] at h3
              exact h3
            | inr q' =>
              rw [hcc] at h3
              exact ih q' (vSet v cur.ident) r h3 f2 hle2

theorem bfsLoop_step_true (g : GraphDict) (d : String) (fuel : Nat)
    (cur : SNode) (q : List SNode) (v : List (String × Bool))
    (hv : vLookup v cur.ident = some true) :
    bfsLoop g d (fuel + 1) (cur :: q) v = bfsLoop g d fuel q v := by
  rw [bfsLoop_cons, hv]

theorem bfsLoop_step_false (g : GraphDict) (d : String) (fuel : Nat)
    (cur : SNode) (q : List SNode) (v : List (String × Bool))
    (adj : List (String × Int))
    (hv : vLookup v cur.ident = some false)
    (hl : lookupD g cur.ident = some adj) :
    bfsLoop g d (fuel + 1) (cur :: q) v =
      (match bfsChildren d cur adj q (vSet v cur.ident) with
      | Sum.inl r => some r
      | Sum.inr q' => bfsLoop g d fuel q' (vSet v cur.ident)) := by
  rw [bfsLoop_cons, hv, hl]

/-- One level of the optimality argument: process every entry of the
depth-`k` block `A` of the queue `A ++ B`.  Invariants: nodes are
well-chained, rooted at `o`, never carry the destination identifier, and
their identifiers are keys; every already-visited identifier has had all
its neighbours either goal-tested (they are not `d`) and visited or left
in the queue; the anchor `y` (a node of the witness path at distance `k`
from the origin) is visited or present in `A`.  Either some depth-`k`
expansion hits the destination (result length `k + 2`), or the level
completes and `KONT` — the induction hypothesis for the next level,
where `y` is by then visited — produces the result. -/
theorem bfs_process_level (g : GraphDict) (hc : closedGraphB g = true)
    (o d y : String) (k rlen : Nat)
    (KONT : ∀ (B' : List SNode) (v' : List (String × Bool)),
      (∀ n ∈ B', SNode.depth n = k + 1) →
      (∀ n ∈ B', ChainOk g n ∧ n.rootId = o ∧ n.ident ≠ d ∧
        n.ident ∈ gkeys g) →
      vKeys v' = gkeys g →
      (∀ y', vLookup v' y' = some true → ∀ z c, (z, c) ∈ adjOf g y' →
        z ≠ d ∧ (vLookup v' z = some true ∨ z ∈ B'.map SNode.ident)) →
      vLookup v' y = some true →
      ∃ fuel ids t, bfsLoop g d fuel B' v' = some (.path ids t) ∧
        ids.length ≤ k + rlen + 2) :
    ∀ (A B : List SNode) (v : List (String × Bool)),
      (∀ n ∈ A, SNode.depth n = k) →
      (∀ n ∈ B, SNode.depth n = k + 1) →
      (∀ n ∈ A ++ B, ChainOk g n ∧ n.rootId = o ∧ n.ident ≠ d ∧
        n.ident ∈ gkeys g) →
      vKeys v = gkeys g →
      (∀ y', vLookup v y' = some true → ∀ z c, (z, c) ∈ adjOf g y' →
        z ≠ d ∧ (vLookup v z = some true ∨
          z ∈ (A ++ B).map SNode.ident)) →
      (vLookup v y = some true ∨ y ∈ A.map SNode.ident) →
      ∃ fuel ids t, bfsLoop g d fuel (A ++ B) v = some (.path ids t) ∧
        ids.length ≤ k + rlen + 2 := by
  intro A
  induction A with
  | nil =>
    intro B v _ hB hQ hv hP hy
    have hyv : vLookup v y = some true := by
      rcases hy with h | h
      · exact h
      · simp at h
    exact KONT B v hB (fun n hn => hQ n (by simpa using hn)) hv
      (fun y' ht z c hz => by
        obtain ⟨h1, h2⟩ := hP y' ht z c hz
        exact ⟨h1, by simpa using h2⟩) hyv
  | cons n A' ihA =>
    intro B v hA hB hQ hv hP hy
    have hnQ := hQ n (by simp)
    obtain ⟨hnC, hnR, hnD, hnK⟩ := hnQ
    have hdepn : n.depth = k := hA n (by simp)
    have hA' : ∀ m ∈ A', SNode.depth m = k := fun m hm =>
      hA m (List.mem_cons_of_mem _ hm)
    have hQ' : ∀ m ∈ A' ++ B, ChainOk g m ∧ m.rootId = o ∧ m.ident ≠ d ∧
        m.ident ∈ gkeys g := by
      intro m hm
      refine hQ m ?_
      rw [List.cons_append]
      exact List.mem_cons_of_mem _ hm
    obtain ⟨b, hvn⟩ := vLookup_some_of_mem v n.ident (hv ▸ hnK)
    cases b with
    | true =>
      have hy2 : vLookup v y = some true ∨ y ∈ A'.map SNode.ident := by
        rcases hy with h | h
        · exact Or.inl h
        · rw [List.map_cons, List.mem_cons] at h
          rcases h with h | h
          · rw [h]
            exact Or.inl hvn
          · exact Or.inr h
      have hP2 : ∀ y', vLookup v y' = some true →
          ∀ z c, (z, c) ∈ adjOf g y' →
          z ≠ d ∧ (vLookup v z = some true ∨
            z ∈ (A' ++ B).map SNode.ident) := by
        intro y' ht z c hz
        obtain ⟨h1, h2⟩ := hP y' ht z c hz
        refine ⟨h1, ?_⟩
        rcases h2 with h | h
        · exact Or.inl h
        · rw [List.cons_append, List.map_cons, List.mem_cons] at h
          rcases h with h | h
          · rw [h]
            exact Or.inl hvn
          · exact Or.inr h
      obtain ⟨fuel, ids, t, hrun, hlen⟩ := ihA B v hA' hB hQ' hv hP2 hy2
      refine ⟨fuel + 1, ids, t, ?_, hlen⟩
      rw [List.cons_append, bfsLoop_step_true g d fuel n (A' ++ B) v hvn]
      exact hrun
    | false =>
      obtain ⟨adj, hadj⟩ := lookupD_some_of_mem g n.ident hnK
      have hadjfull : adjOf g n.ident = adj := adjOf_of_lookup g _ _ hadj
      have hv2 : vKeys (vSet v n.ident) = gkeys g := by
        rw [vKeys_vSet]; exact hv
      by_cases hasd : ∃ cc : Int, (d, cc) ∈ adj
      · obtain ⟨cc, hdc⟩ := hasd
        obtain ⟨c', hfind⟩ := bfsChildren_finds d n adj (A' ++ B)
          (vSet v n.ident)
          (fun p hp => by
            rw [hv2]
            exact closed_adj g hc (hadjfull ▸ hp)) cc hdc
        refine ⟨1, retrace (SNode.child d n c'),
          (SNode.child d n c').total, ?_, ?_⟩
        · rw [List.cons_append,
            bfsLoop_step_false g d 0 n (A' ++ B) v adj hvn hadj, hfind]
          rfl
        · rw [retrace_length]
          simp only [SNode.depth, hdepn]
          omega
      · have hnod : ∀ p ∈ adj, p.1 ≠ d ∧ p.1 ∈ vKeys (vSet v n.ident) := by
          intro p hp
          constructor
          · intro he
            exact hasd ⟨p.2, by rw [← he]; exact hp⟩
          · rw [hv2]
            exact closed_adj g hc (hadjfull ▸ hp)
        obtain ⟨new, hres, hchar, hcov⟩ := bfsChildren_no_d d n adj
          (A' ++ B) (vSet v n.ident) hnod
        have hnew : ∀ m ∈ new, ChainOk g m ∧ m.rootId = o ∧
            m.ident ≠ d ∧ m.ident ∈ gkeys g ∧ m.depth = k + 1 := by
          intro m hm
          obtain ⟨cid, c, hmem, rfl⟩ := hchar m hm
          refine ⟨⟨?_, hnC⟩, hnR, ?_, ?_, ?_⟩
          · exact contains_of_mem (hadjfull ▸ hmem)
          · exact (hnod (cid, c) hmem).1
          · exact closed_adj g hc (hadjfull ▸ hmem)
          · simp [SNode.depth, hdepn]
        have hB2 : ∀ m ∈ B ++ new, SNode.depth m = k + 1 := by
          intro m hm
          rcases List.mem_append.1 hm with h | h
          · exact hB m h
          · exact (hnew m h).2.2.2.2
        have hQ2 : ∀ m ∈ A' ++ (B ++ new), ChainOk g m ∧ m.rootId = o ∧
            m.ident ≠ d ∧ m.ident ∈ gkeys g := by
          intro m hm
          rw [← List.append_assoc] at hm
          rcases List.mem_append.1 hm with h | h
          · exact hQ' m h
          · obtain ⟨h1, h2, h3, h4, _⟩ := hnew m h
            exact ⟨h1, h2, h3, h4⟩
        have hP2 : ∀ y', vLookup (vSet v n.ident) y' = some true →
            ∀ z c, (z, c) ∈ adjOf g y' →
            z ≠ d ∧ (vLookup (vSet v n.ident) z = some true ∨
              z ∈ (A' ++ (B ++ new)).map SNode.ident) := by
          intro y' ht z c hz
          rcases vSet_true_cases v n.ident y' ht with hcase | hcase
          · rw [hcase, hadjfull] at hz
            refine ⟨(hnod (z, c) hz).1, ?_⟩
            rcases hcov z c hz with h | h
            · exact Or.inl h
            · right
              rw [← List.append_assoc]
              exact h
          · obtain ⟨h1, h2⟩ := hP y' hcase z c hz
            refine ⟨h1, ?_⟩
            rcases h2 with h | h
            · exact Or.inl (vSet_preserves_true v n.ident z h)
            · rw [List.cons_append, List.map_cons, List.mem_cons] at h
              rcases h with h | h
              · rw [h]
                exact Or.inl (vSet_lookup_self v n.ident false hvn)
              · right
                rw [List.mem_map] at h ⊢
                obtain ⟨m, hm, hid⟩ := h
                refine ⟨m, ?_, hid⟩
                rw [← List.append_assoc]
                exact List.mem_append_left _ hm
        have hy2 : vLookup (vSet v n.ident) y = some true ∨
            y ∈ A'.map SNode.ident := by
          rcases hy with h | h
          · exact Or.inl (vSet_preserves_true v n.ident y h)
          · rw [List.map_cons, List.mem_cons] at h
            rcases h with h | h
            · rw [h]
              exact Or.inl (vSet_lookup_self v n.ident false hvn)
            · exact Or.inr h
        obtain ⟨fuel, ids, t, hrun, hlen⟩ :=
          ihA (B ++ new) (vSet v n.ident) hA' hB2 hQ2 hv2 hP2 hy2
        refine ⟨fuel + 1, ids, t, ?_, hlen⟩
        rw [List.cons_append,
          bfsLoop_step_false g d fuel n (A' ++ B) v adj hvn hadj, hres,
          List.append_assoc]
        exact hrun

theorem exists_concat_of_ne_nil {α : Type} (l : List α) (h : l ≠ []) :
    ∃ pre last, l = pre ++ [last] := by
  induction l with
  | nil => exact absurd rfl h
  | cons a rest ih =>
    cases rest with
    | nil => exact ⟨[], a, rfl⟩
    | cons b rest' =>
      obtain ⟨pre, last, heq⟩ := ih (by simp)
      exact ⟨a :: pre, last, by rw [List.cons_append, ← heq]⟩

/-- Level-by-level optimality run: given a stored witness path
`y —rest→ x —(d)` whose first hop (`y`) is covered by the current
level-`k` block, the BFS loop returns a reconstructed path of at most
`k + rest.length + 1` edges. -/
theorem bfs_levels (g : GraphDict) (hc : closedGraphB g = true)
    (o d x : String) (cd : Int) (hxd : (d, cd) ∈ adjOf g x) :
    ∀ (rest : List (String × Int)) (y : String) (k : Nat)
      (A B : List SNode) (v : List (String × Bool)),
      stepsOk g y rest = true →
      endOfSteps y rest = x →
      (∀ n ∈ A, SNode.depth n = k) →
      (∀ n ∈ B, SNode.depth n = k + 1) →
      (∀ n ∈ A ++ B, ChainOk g n ∧ n.rootId = o ∧ n.ident ≠ d ∧
        n.ident ∈ gkeys g) →
      vKeys v = gkeys g →
      (∀ y', vLookup v y' = some true → ∀ z c, (z, c) ∈ adjOf g y' →
        z ≠ d ∧ (vLookup v z = some true ∨
          z ∈ (A ++ B).map SNode.ident)) →
      (vLookup v y = some true ∨ y ∈ A.map SNode.ident) →
      ∃ fuel ids t, bfsLoop g d fuel (A ++ B) v = some (.path ids t) ∧
        ids.length ≤ k + rest.length + 2 := by
  intro rest
  induction rest with
  | nil =>
    intro y k A B v hok hend hA hB hQ hv hP hy
    have hyx : y = x := by simpa [endOfSteps] using hend
    refine bfs_process_level g hc o d y k 0 ?_ A B v hA hB hQ hv hP hy
    intro B' v' _ _ _ hP' hyv
    exfalso
    exact (hP' y hyv d cd (by rw [hyx]; exact hxd)).1 rfl
  | cons hd rest' ihrest =>
    obtain ⟨y1, c1⟩ := hd
    intro y k A B v hok hend hA hB hQ hv hP hy
    rw [stepsOk, Bool.and_eq_true] at hok
    have hedge : (y1, c1) ∈ adjOf g y := mem_of_contains hok.1
    have hend' : endOfSteps y1 rest' = x := by
      rw [endOfSteps_cons] at hend
      exact hend
    refine bfs_process_level g hc o d y k (rest'.length + 1) ?_
      A B v hA hB hQ hv hP hy
    intro B' v' hB' hQ' hv' hP' hyv
    obtain ⟨hy1d, hcov⟩ := hP' y hyv y1 c1 hedge
    obtain ⟨fuel, ids, t, hrun, hlen⟩ :=
      ihrest y1 (k + 1) B' [] v' hok.2 hend' hB'
        (by intro m hm; cases hm)
        (by intro m hm; rw [List.append_nil] at hm; exact hQ' m hm)
        hv'
        (by
          intro y' ht z c hz
          obtain ⟨h1, h2⟩ := hP' y' ht z c hz
          refine ⟨h1, ?_⟩
          rcases h2 with h | h
          · exact Or.inl h
          · right
            rw [List.append_nil]
            exact h)
        hcov
    rw [List.append_nil] at hrun
    exact ⟨fuel, ids, t, hrun, by omega⟩

theorem bfs_unfold_valid (g : GraphDict) (origin destination : String)
    (fuel : Nat) (hne : pyTitle origin ≠ pyTitle destination)
    (ho : pyTitle origin ∈ gkeys g)
    (hd : pyTitle destination ∈ gkeys g) :
    breadth_first_search fuel g origin destination =
      bfsLoop g (pyTitle destination) fuel
        [SNode.root (pyTitle origin)] (initVisited (gkeys g)) := by
  unfold breadth_first_search
  dsimp only
  rw [if_neg hne, if_neg (not_not_intro ho), if_neg (not_not_intro hd)]

/-- Starting run for one stored witness path from the canonicalized
origin to the canonicalized destination. -/
theorem bfs_run_for_path (g : GraphDict) (hc : closedGraphB g = true)
    (o d : String) (hne : o ≠ d) (ho : o ∈ gkeys g)
    (steps : List (String × Int)) (hok : stepsOk g o steps = true)
    (hend : endOfSteps o steps = d) :
    ∃ fuel ids t,
      bfsLoop g d fuel [SNode.root o] (initVisited (gkeys g)) =
        some (.path ids t) ∧
      ids.length ≤ steps.length + 1 := by
  have hsne : steps ≠ [] := by
    intro h
    rw [h] at hend
    exact hne (by simpa [endOfSteps] using hend)
  obtain ⟨pre, last, rfl⟩ := exists_concat_of_ne_nil steps hsne
  obtain ⟨z, cz⟩ := last
  have hz : z = d := by
    rw [endOfSteps_concat] at hend
    exact hend
  subst z
  rw [stepsOk_append, Bool.and_eq_true] at hok
  have hedge : (d, cz) ∈ adjOf g (endOfSteps o pre) :=
    mem_of_contains hok.2
  obtain ⟨fuel, ids, t, hrun, hlen⟩ :=
    bfs_levels g hc o d (endOfSteps o pre) cz hedge pre o 0
      [SNode.root o] [] (initVisited (gkeys g)) hok.1 rfl
      (by intro m hm; simp at hm; rw [hm]; rfl)
      (by intro m hm; cases hm)
      (by
        intro m hm
        simp only [List.append_nil, List.mem_singleton] at hm
        rw [hm]
        exact ⟨trivial, rfl, hne, ho⟩)
      (vKeys_initVisited (gkeys g))
      (by
        intro y' ht z c hz
        exfalso
        have := vLookup_initVisited (gkeys g) y' true ht
        cases this)
      (by right; simp [SNode.ident])
  rw [List.append_nil] at hrun
  refine ⟨fuel, ids, t, hrun, ?_⟩
  have : (pre ++ [(d, cz)]).length = pre.length + 1 := by simp
  omega

/-- C2 (amended): on a graph with no dangling neighbour references,
for distinct canonicalized origin/destination that are both keys and are
connected by at least one stored path, `breadth_first_search` returns
(for every sufficient fuel) a path whose number of edges is minimal
among all stored paths from origin to destination — even though its
weighted cost need not be minimal.  (With dangling references BFS can
instead raise a `KeyError` and return no path, as the counterexample
shows.) -/
theorem c2_bfs_returns_minimal_hop_path (g : GraphDict)
    (origin destination : String)
    (hc : closedGraphB g = true)
    (hne : pyTitle origin ≠ pyTitle destination)
    (ho : pyTitle origin ∈ gkeys g)
    (hd : pyTitle destination ∈ gkeys g)
    (hconn : ∃ steps, stepsOk g (pyTitle origin) steps = true ∧
      endOfSteps (pyTitle origin) steps = pyTitle destination) :
    ∃ fuel ids t,
      breadth_first_search fuel g origin destination =
        some (.path ids t) ∧
      (∃ steps', stepsOk g (pyTitle origin) steps' = true ∧
        ids = pathOfSteps (pyTitle origin) steps' ∧
        t = costOfSteps steps' ∧
        endOfSteps (pyTitle origin) steps' = pyTitle destination) ∧
      (∀ fuel', fuel ≤ fuel' →
        breadth_first_search fuel' g origin destination =
          some (.path ids t)) ∧
      ∀ steps, stepsOk g (pyTitle origin) steps = true →
        endOfSteps (pyTitle origin) steps = pyTitle destination →
        ids.length ≤ steps.length + 1 := by
  obtain ⟨steps0, hok0, hend0⟩ := hconn
  obtain ⟨f0, ids0, t0, hrun0, hlen0⟩ :=
    bfs_run_for_path g hc (pyTitle origin) (pyTitle destination) hne ho
      steps0 hok0 hend0
  have htop : breadth_first_search f0 g origin destination =
      some (.path ids0 t0) := by
    rw [bfs_unfold_valid g origin destination f0 hne ho hd]
    exact hrun0
  refine ⟨f0, ids0, t0, htop, ?_, ?_, ?_⟩
  · exact bfs_good g origin destination f0 _ htop ids0 t0 rfl
  · intro fuel' hle
    rw [bfs_unfold_valid g origin destination fuel' hne ho hd]
    exact bfsLoop_mono g (pyTitle destination) f0 _ _ _ hrun0 fuel' hle
  · intro steps hok hend
    obtain ⟨f1, ids1, t1, hrun1, hlen1⟩ :=
      bfs_run_for_path g hc (pyTitle origin) (pyTitle destination) hne ho
        steps hok hend
    have h0 := bfsLoop_mono g (pyTitle destination) f0 _ _ _ hrun0
      (max f0 f1) (le_max_left _ _)
    have h1 := bfsLoop_mono g (pyTitle destination) f1 _ _ _ hrun1
      (max f0 f1) (le_max_right _ _)
    rw [h0] at h1
    injection h1 with h1
    injection h1 with hids ht
    rw [hids]
    exact hlen1

/-- Witness for C2 (amended): on the Romania fragment, BFS Arad→Oradea
returns the two-edge path Arad–Zerind–Oradea (cost 146, not the
cheapest possible but hop-minimal); in particular its length is bounded
by that of the concrete competitor Arad–Sibiu–...—there is no shorter
stored path. -/
theorem c2_witness :
    ∃ fuel ids t,
      breadth_first_search fuel romaniaFragment "arad" "oradea" =
        some (.path ids t) ∧
      (∃ steps', stepsOk romaniaFragment (pyTitle "arad") steps' = true ∧
        ids = pathOfSteps (pyTitle "arad") steps' ∧
        t = costOfSteps steps' ∧
        endOfSteps (pyTitle "arad") steps' = pyTitle "oradea") ∧
      (∀ fuel', fuel ≤ fuel' →
        breadth_first_search fuel' romaniaFragment "arad" "oradea" =
          some (.path ids t)) ∧
      ∀ steps, stepsOk romaniaFragment (pyTitle "arad") steps = true →
        endOfSteps (pyTitle "arad") steps = pyTitle "oradea" →
        ids.length ≤ steps.length + 1 :=
  c2_bfs_returns_minimal_hop_path romaniaFragment "arad" "oradea"
    (by decide) (by decide) (by decide) (by decide)
    ⟨[("Zerind", 75), ("Oradea", 71)], by decide, by decide⟩
